import Mathlib

/-!
# DataAnalyzer: loading, column typing, statistics, correlation, search, export

A shallow embedding of `class DataAnalyzer` of `src/main.cpp`.

* The table is the pair of members `headers` and `data`; every method reads it
  and none changes it after the load, so it is passed as an argument.
* An `int` column index is an `Int`; `static_cast<int>(v.size())` is the length
  read as an `Int` (sizes are taken to fit in an `int`, as the casts presume).
* A `double` is an element of a type `α` that carries the operations the
  program uses (zero, sum, difference, product, quotient, comparisons, the cast
  of a size), together with a square-root function `sqrt : α → α`.  Two readings
  are used: a linearly ordered field, the reals with `Real.sqrt` among them, which
  is exact arithmetic; and `F64`, the IEEE 754 binary64 numbers with rounding
  to nearest, overflow to infinity and NaN, which is the arithmetic of the
  program.
* `std::stod` is a function `stod : String → Option α`, `none` standing for a
  thrown exception.  It is a parameter of every operation that parses a cell;
  `stodDecimal` is a concrete reading of it on decimal text into an ordered
  field, `stodDouble` the reading into `F64`.
* The `std::sort` of the frequency entries is a function of the entries it is
  given; `analyzeColumnWith` leaves it open and `analyzeColumn` takes the sort
  `sortByCount`.
* A `std::string` is a `String`, read character by character; the text of a
  file is a `String` as well.  `loadData` is modelled on the text of a file that
  could be opened, `exportData` returns the text it writes.
* Console output is replaced by returned values.
-/

namespace DataAnalyzer

/-- The members `headers` and `data` of the analyzer: the header row and the
data rows, every cell a raw string.  Rows may be ragged. -/
structure Table where
  headers : List String
  data : List (List String)

/-! ## A concrete reading of `std::stod` on decimal text -/

/-- The characters `std::isspace` accepts in the C locale: blank, `\t`, `\n`,
`\v`, `\f`, `\r`. -/
def isSpace (c : Char) : Bool :=
  c.toNat = 32 || (9 ≤ c.toNat && c.toNat ≤ 13)

/-- A decimal digit. -/
def isDigit (c : Char) : Bool :=
  48 ≤ c.toNat && c.toNat ≤ 57

/-- The number written by a run of decimal digits, most significant first,
continuing from the accumulator. -/
def digitsValue : List Char → Nat → Nat
  | [], acc => acc
  | c :: cs, acc => digitsValue cs (10 * acc + (c.toNat - 48))

/-- A parsed decimal: sign, digits read as a natural number, power of ten. -/
structure Decimal where
  neg : Bool
  mantissa : Nat
  exponent : Int
deriving DecidableEq

/-- The optional exponent part `e`/`E`, optional sign, digits.  It is read only
when at least one digit follows; otherwise the number ends before the `e`. -/
def parseExponent : List Char → Int
  | [] => 0
  | c :: cs =>
    if c = 'e' ∨ c = 'E' then
      match cs with
      | [] => 0
      | d :: ds =>
        if d = '-' then
          (if (ds.takeWhile isDigit).isEmpty then 0
           else - (digitsValue (ds.takeWhile isDigit) 0 : Int))
        else if d = '+' then (digitsValue (ds.takeWhile isDigit) 0 : Int)
        else (digitsValue ((d :: ds).takeWhile isDigit) 0 : Int)
    else 0

/-- The digits, optional point and fraction, and optional exponent of a decimal
number, after blanks and sign.  `none` when there is no digit at all. -/
def parseUnsigned (neg : Bool) (s : List Char) : Option Decimal :=
  let intDigits := s.takeWhile isDigit
  let rest := s.dropWhile isDigit
  match rest with
  | '.' :: afterPoint =>
    let fracDigits := afterPoint.takeWhile isDigit
    if intDigits.isEmpty && fracDigits.isEmpty then none
    else some ⟨neg, digitsValue (intDigits ++ fracDigits) 0,
      parseExponent (afterPoint.dropWhile isDigit) - (fracDigits.length : Int)⟩
  | _ =>
    if intDigits.isEmpty then none
    else some ⟨neg, digitsValue intDigits 0, parseExponent rest⟩

/-- The longest decimal prefix of the text: leading blanks are skipped, then an
optional sign, then the number; what follows the number is ignored, as
`std::stod` does.  Hexadecimal, `inf` and `nan` spellings are not read. -/
def parseDecimal (s : List Char) : Option Decimal :=
  match s.dropWhile isSpace with
  | '-' :: cs => parseUnsigned true cs
  | '+' :: cs => parseUnsigned false cs
  | cs => parseUnsigned false cs

/-- The value of a parsed decimal in the field `α`. -/
def Decimal.toValue {α : Type} [LinearOrderedField α] (d : Decimal) : α :=
  (if d.neg then -1 else 1) * (d.mantissa : α) * (10 : α) ^ d.exponent

/-- A concrete `std::stod` on decimal text: the exact value of the longest
decimal prefix, `none` where `std::stod` throws `invalid_argument`. -/
def stodDecimal {α : Type} [LinearOrderedField α] (s : String) : Option α :=
  (parseDecimal s.toList).map Decimal.toValue

/-! ## The `double` of the program: IEEE 754 binary64 -/

/-- A binary64 number.  `fin m e` is the finite value `m * 2 ^ e`, kept in one
form only: `m = 0` and `e = 0` for zero; `2 ^ 52 ≤ |m| < 2 ^ 53` and
`-1074 ≤ e ≤ 971` for a normal number; `|m| < 2 ^ 52` and `e = -1074` for a
subnormal one.  The sign of zero and the payload of a NaN are not kept: no
comparison or arithmetic result of the program depends on them. -/
inductive F64 where
  | fin (m : Int) (e : Int) : F64
  | inf (neg : Bool) : F64
  | nan : F64
deriving DecidableEq

namespace F64

/-- The loop of `bitLength`: 64 binary digits at a time while there are that
many, then one at a time. -/
def bitLengthLoop : Nat → Nat → Nat → Nat
  | 0, _, acc => acc
  | fuel + 1, n, acc =>
    if n = 0 then acc
    else if 2 ^ 64 ≤ n then bitLengthLoop fuel (n >>> 64) (acc + 64)
    else bitLengthLoop fuel (n >>> 1) (acc + 1)

/-- The number of binary digits of `n`. -/
def bitLength (n : Nat) : Nat :=
  bitLengthLoop n n 0

/-- The integer part of the binary logarithm of `n / d * 2 ^ k`, for positive
`n` and `d`. -/
def floorLog2 (n d : Nat) (k : Int) : Int :=
  let guess : Int := (bitLength n : Int) - (bitLength d : Int)
  let reached : Bool :=
    if 0 ≤ guess then decide (d <<< guess.toNat ≤ n) else decide (d ≤ n <<< (-guess).toNat)
  (if reached then guess else guess - 1) + k

/-- The quotient `num / den` rounded to the nearest integer, a tie going to
the even neighbour. -/
def roundHalfEven (num den : Nat) : Nat :=
  if den < 2 * (num % den) ∨ (2 * (num % den) = den ∧ (num / den) % 2 = 1) then num / den + 1
  else num / den

/-- The binary64 number nearest to `± n / d * 2 ^ k` (`d` positive), ties to
even: 53 significant digits, fewer below `2 ^ -1022`, zero when the value rounds
to nothing, infinity when it rounds beyond the largest finite number. -/
def round (neg : Bool) (n d : Nat) (k : Int) : F64 :=
  if n = 0 then fin 0 0
  else
    let e := max (floorLog2 n d k - 52) (-1074)
    let m :=
      if 0 ≤ k - e then roundHalfEven (n <<< (k - e).toNat) d
      else roundHalfEven n (d <<< (e - k).toNat)
    if m = 0 then fin 0 0
    else if m = 2 ^ 53 then
      (if 971 < e + 1 then inf neg else fin (if neg then -(2 ^ 52 : Int) else 2 ^ 52) (e + 1))
    else if 971 < e then inf neg
    else fin (if neg then -(m : Int) else (m : Int)) e

/-- The binary64 number nearest to the integer multiple `m * 2 ^ e`. -/
def ofInt (m e : Int) : F64 :=
  round (decide (m < 0)) m.natAbs 1 e

/-- Unary minus. -/
def neg : F64 → F64
  | fin m e => fin (-m) e
  | inf s => inf (!s)
  | nan => nan

/-- The integer `m * 2 ^ (e - base)`, for `base ≤ e`. -/
def scaled (m e base : Int) : Int :=
  m * (((1 : Nat) <<< (e - base).toNat : Nat) : Int)

/-- The sum, correctly rounded. -/
def add : F64 → F64 → F64
  | fin m1 e1, fin m2 e2 =>
    ofInt (scaled m1 e1 (min e1 e2) + scaled m2 e2 (min e1 e2)) (min e1 e2)
  | fin _ _, inf s => inf s
  | inf s, fin _ _ => inf s
  | inf s1, inf s2 => if s1 = s2 then inf s1 else nan
  | _, _ => nan

/-- The difference, correctly rounded. -/
def sub (a b : F64) : F64 :=
  add a (neg b)

/-- The product, correctly rounded. -/
def mul : F64 → F64 → F64
  | fin m1 e1, fin m2 e2 => ofInt (m1 * m2) (e1 + e2)
  | fin m _, inf s => if m = 0 then nan else inf (xor s (decide (m < 0)))
  | inf s, fin m _ => if m = 0 then nan else inf (xor s (decide (m < 0)))
  | inf s1, inf s2 => inf (xor s1 s2)
  | _, _ => nan

/-- The quotient, correctly rounded. -/
def div : F64 → F64 → F64
  | fin m1 e1, fin m2 e2 =>
    if m2 = 0 then (if m1 = 0 then nan else inf (decide (m1 < 0)))
    else round (xor (decide (m1 < 0)) (decide (m2 < 0))) m1.natAbs m2.natAbs (e1 - e2)
  | fin _ _, inf _ => fin 0 0
  | inf s, fin m _ => inf (xor s (decide (m < 0)))
  | inf _, inf _ => nan
  | _, _ => nan

/-- The loop of `isqrt`: the binary digits of the root, highest first. -/
def isqrtBits (n : Nat) : Nat → Nat → Nat
  | 0, r => r
  | b + 1, r =>
    if (r + 1 <<< b) * (r + 1 <<< b) ≤ n then isqrtBits n b (r + 1 <<< b) else isqrtBits n b r

/-- The integer part of the square root of `n`. -/
def isqrt (n : Nat) : Nat :=
  isqrtBits n (bitLength n / 2 + 1) 0

/-- `std::sqrt`, correctly rounded: the root of the value scaled by an even
power of two is taken on integers, with a last digit that records whether
anything was left over. -/
def sqrt : F64 → F64
  | fin m e =>
    if m < 0 then nan
    else if m = 0 then fin 0 0
    else
      let t : Nat := if e % 2 = 0 then 128 else 129
      let radicand := m.natAbs <<< t
      let r := isqrt radicand
      round false (2 * r + (if r * r = radicand then 0 else 1)) 1 ((e - t) / 2 - 1)
  | inf s => if s then nan else inf false
  | nan => nan

/-- The comparison `<`; false when a NaN is compared. -/
def lt : F64 → F64 → Bool
  | fin m1 e1, fin m2 e2 => decide (scaled m1 e1 (min e1 e2) < scaled m2 e2 (min e1 e2))
  | fin _ _, inf s => !s
  | inf s, fin _ _ => s
  | inf s1, inf s2 => s1 && !s2
  | _, _ => false

/-- The comparison `<=`; false when a NaN is compared. -/
def le : F64 → F64 → Bool
  | fin m1 e1, fin m2 e2 => decide (scaled m1 e1 (min e1 e2) ≤ scaled m2 e2 (min e1 e2))
  | fin _ _, inf s => !s
  | inf s, fin _ _ => s
  | inf s1, inf s2 => s1 || !s2
  | _, _ => false

/-- The conversion of a size or of an integer literal. -/
def ofNat (n : Nat) : F64 :=
  round false n 1 0

/-- The power `10 ^ k`. -/
def pow10 : Nat → Nat
  | 0 => 1
  | k + 1 => 10 * pow10 k

/-- The binary64 number nearest to the decimal `± mantissa * 10 ^ exponent`. -/
def ofDecimal (neg : Bool) (mantissa : Nat) (exponent : Int) : F64 :=
  if 0 ≤ exponent then round neg (mantissa * pow10 exponent.toNat) 1 0
  else round neg mantissa (pow10 (-exponent).toNat) 0

end F64

instance F64.instZero : Zero F64 := ⟨F64.fin 0 0⟩

instance F64.instOne : One F64 := ⟨F64.ofNat 1⟩

instance F64.instOfNat (n : Nat) : OfNat F64 n := ⟨F64.ofNat n⟩

instance F64.instNatCast : NatCast F64 := ⟨F64.ofNat⟩

instance F64.instAdd : Add F64 := ⟨F64.add⟩

instance F64.instSub : Sub F64 := ⟨F64.sub⟩

instance F64.instMul : Mul F64 := ⟨F64.mul⟩

instance F64.instDiv : Div F64 := ⟨F64.div⟩

instance F64.instNeg : Neg F64 := ⟨F64.neg⟩

instance F64.instLT : LT F64 := ⟨fun a b => F64.lt a b = true⟩

instance F64.instLE : LE F64 := ⟨fun a b => F64.le a b = true⟩

instance F64.instDecidableLT (a b : F64) : Decidable (a < b) :=
  inferInstanceAs (Decidable (F64.lt a b = true))

instance F64.instDecidableLE (a b : F64) : Decidable (a ≤ b) :=
  inferInstanceAs (Decidable (F64.le a b = true))

/-- `std::stod` on decimal text, into `double`: the longest decimal prefix,
correctly rounded; `none` where `std::stod` throws `invalid_argument` (no
number) or `out_of_range` (the value rounds to infinity).  As in
`stodDecimal`, hexadecimal, `inf` and `nan` spellings are not read; the range
error on underflow is not modelled, a value below the normal range is read as
its rounding. -/
def stodDouble (s : String) : Option F64 :=
  match parseDecimal s.toList with
  | none => none
  | some d =>
    match F64.ofDecimal d.neg d.mantissa d.exponent with
    | F64.inf _ => none
    | v => some v

/-! ## Column typing and numeric extraction -/

/-- The row loop of `isNumericColumn`: a row that has the index and whose cell
does not parse ends the loop with `false`; a row without the index is passed
over. -/
def isNumericRows {α : Type} (stod : String → Option α) (columnIndex : Int) :
    List (List String) → Bool
  | [] => true
  | row :: rest =>
    if columnIndex < (row.length : Int) then
      match stod (row.getD columnIndex.toNat "") with
      | none => false
      | some _ => isNumericRows stod columnIndex rest
    else isNumericRows stod columnIndex rest

/-- `DataAnalyzer::isNumericColumn`. -/
def isNumericColumn {α : Type} (stod : String → Option α) (t : Table)
    (columnIndex : Int) : Bool :=
  if columnIndex < 0 ∨ columnIndex ≥ (t.headers.length : Int) then false
  else isNumericRows stod columnIndex t.data

/-- The row loop of `getNumericColumn`, with the vector `values` built so far:
a present cell that parses is pushed at the back, every other row is skipped. -/
def getNumericRows {α : Type} (stod : String → Option α) (columnIndex : Int) :
    List (List String) → List α → List α
  | [], values => values
  | row :: rest, values =>
    if columnIndex < (row.length : Int) then
      match stod (row.getD columnIndex.toNat "") with
      | some v => getNumericRows stod columnIndex rest (values ++ [v])
      | none => getNumericRows stod columnIndex rest values
    else getNumericRows stod columnIndex rest values

/-- `DataAnalyzer::getNumericColumn`. -/
def getNumericColumn {α : Type} (stod : String → Option α) (t : Table)
    (columnIndex : Int) : List α :=
  if columnIndex < 0 ∨ columnIndex ≥ (t.headers.length : Int) then []
  else getNumericRows stod columnIndex t.data []

/-- The extraction as the specification words it: in row order, the parsed
value of each row whose cell at the index is present and parses. -/
def presentParsed {α : Type} (stod : String → Option α) (c : Nat)
    (rows : List (List String)) : List α :=
  rows.filterMap (fun row => (row.get? c).bind stod)

/-! ## Descriptive statistics -/

/-- The values `analyzeColumn` prints for a numeric column. -/
structure NumericStats (α : Type) where
  count : Nat
  mean : α
  median : α
  min : α
  max : α
  stdDev : α
  sum : α

/-- The outcomes of `analyzeColumn`: the two early returns, the numeric report
and the categorical report (total entries, unique values and the frequency
distribution as value, count, percentage). -/
inductive AnalysisResult (α : Type) where
  | invalidColumn : AnalysisResult α
  | noNumericData : AnalysisResult α
  | numeric (stats : NumericStats α) : AnalysisResult α
  | categorical (totalCount : Nat) (uniqueValues : Nat)
      (distribution : List (String × Nat × α)) : AnalysisResult α

/-- `std::accumulate(v.begin(), v.end(), 0.0)`. -/
def accumulate {α : Type} [Zero α] [Add α] (values : List α) : α :=
  values.foldl (fun acc value => acc + value) 0

/-- `std::sort(values.begin(), values.end())`: the values in ascending order.
On a linear order the ascending arrangement of a list is unique, so the sorting
algorithm does not show in the result. -/
def sortValues {α : Type} [LE α] [DecidableRel (fun a b : α => a ≤ b)]
    (values : List α) : List α :=
  values.insertionSort (fun a b => a ≤ b)

/-- The median expression of `analyzeColumn`, on the sorted values. -/
def medianOf {α : Type} [Zero α] [Add α] [Div α] [OfNat α 2] (values : List α) : α :=
  if values.length % 2 = 0 then
    (values.getD (values.length / 2 - 1) 0 + values.getD (values.length / 2) 0) / 2
  else values.getD (values.length / 2) 0

/-- The local `variance` of `analyzeColumn`: the loop adding the squared
deviations, then the division by `values.size()`. -/
def varianceOf {α : Type} [Zero α] [Add α] [Sub α] [Mul α] [Div α] [NatCast α]
    (values : List α) (mean : α) : α :=
  values.foldl (fun variance value => variance + (value - mean) * (value - mean)) 0
    / (values.length : α)

/-- The numeric branch of `analyzeColumn` after the emptiness test. -/
def numericStats {α : Type} [Zero α] [Add α] [Sub α] [Mul α] [Div α] [NatCast α]
    [OfNat α 2] [LE α] [DecidableRel (fun a b : α => a ≤ b)]
    (sqrt : α → α) (extracted : List α) : NumericStats α :=
  let values := sortValues extracted
  let sum := accumulate values
  let mean := sum / (values.length : α)
  { count := values.length
    mean := mean
    median := medianOf values
    min := values.head?.getD 0
    max := values.getLast?.getD 0
    stdDev := sqrt (varianceOf values mean)
    sum := sum }

/-- The statement `frequency[key]++` on a `std::map<std::string, int>`, the map
kept as its entries in key order. -/
def frequencyIncr (key : String) : List (String × Nat) → List (String × Nat)
  | [] => [(key, 1)]
  | (k, n) :: rest =>
    if key = k then (k, n + 1) :: rest
    else if key < k then (key, 1) :: (k, n) :: rest
    else (k, n) :: frequencyIncr key rest

/-- The counting loop of the categorical branch: the map `frequency` and
`totalCount` after the rows. -/
def frequencyRows (columnIndex : Int) :
    List (List String) → List (String × Nat) × Nat → List (String × Nat) × Nat
  | [], state => state
  | row :: rest, (frequency, totalCount) =>
    if columnIndex < (row.length : Int) then
      frequencyRows columnIndex rest
        (frequencyIncr (row.getD columnIndex.toNat "") frequency, totalCount + 1)
    else frequencyRows columnIndex rest (frequency, totalCount)

/-- One outcome of the `std::sort` of `sortedFreq` by the comparator
`a.second > b.second`: the entries in non-increasing order of count, entries of
equal count left in map order.  `std::sort` is not stable: it promises the
order of the counts and leaves the order among equal counts open. -/
def sortByCount (entries : List (String × Nat)) : List (String × Nat) :=
  entries.insertionSort (fun a b => a.2 ≥ b.2)

/-- `DataAnalyzer::analyzeColumn`, with the function `sortFreq` that the call
of `std::sort` on `sortedFreq` computes left open. -/
def analyzeColumnWith {α : Type} [Zero α] [Add α] [Sub α] [Mul α] [Div α] [NatCast α]
    [OfNat α 2] [OfNat α 100] [LE α] [DecidableRel (fun a b : α => a ≤ b)]
    (sortFreq : List (String × Nat) → List (String × Nat))
    (stod : String → Option α) (sqrt : α → α) (t : Table)
    (columnIndex : Int) : AnalysisResult α :=
  if columnIndex < 0 ∨ columnIndex ≥ (t.headers.length : Int) then .invalidColumn
  else if isNumericColumn stod t columnIndex then
    let values := getNumericColumn stod t columnIndex
    if values.isEmpty then .noNumericData
    else .numeric (numericStats sqrt values)
  else
    let counted := frequencyRows columnIndex t.data ([], 0)
    .categorical counted.2 counted.1.length
      ((sortFreq counted.1).map
        (fun pair => (pair.1, pair.2, (pair.2 : α) / (counted.2 : α) * 100)))

/-- `DataAnalyzer::analyzeColumn`, the sort taken as `sortByCount`. -/
def analyzeColumn {α : Type} [Zero α] [Add α] [Sub α] [Mul α] [Div α] [NatCast α]
    [OfNat α 2] [OfNat α 100] [LE α] [DecidableRel (fun a b : α => a ≤ b)]
    (stod : String → Option α) (sqrt : α → α) (t : Table)
    (columnIndex : Int) : AnalysisResult α :=
  analyzeColumnWith sortByCount stod sqrt t columnIndex

/-! ## Pearson correlation -/

/-- The three running sums of the loop of `calculateCorrelation`. -/
structure CorrSums (α : Type) where
  numerator : α
  sumX2 : α
  sumY2 : α

/-- One pass of the loop body of `calculateCorrelation` at index `i`. -/
def corrStep {α : Type} [Zero α] [Add α] [Sub α] [Mul α]
    (x y : List α) (meanX meanY : α) (s : CorrSums α) (i : Nat) : CorrSums α :=
  let dx := x.getD i 0 - meanX
  let dy := y.getD i 0 - meanY
  { numerator := s.numerator + dx * dy
    sumX2 := s.sumX2 + dx * dx
    sumY2 := s.sumY2 + dy * dy }

/-- The sums `numerator`, `sumX2` and `sumY2` of `calculateCorrelation` after
its loop, the two means computed first. -/
def corrSums {α : Type} [Zero α] [Add α] [Sub α] [Mul α] [Div α] [NatCast α]
    (x y : List α) : CorrSums α :=
  let meanX := accumulate x / (x.length : α)
  let meanY := accumulate y / (y.length : α)
  (List.range x.length).foldl (corrStep x y meanX meanY) ⟨0, 0, 0⟩

/-- `DataAnalyzer::calculateCorrelation`. -/
def calculateCorrelation {α : Type} [Zero α] [Add α] [Sub α] [Mul α] [Div α] [NatCast α]
    [DecidableEq α] (sqrt : α → α) (x y : List α) : α :=
  if x.length ≠ y.length ∨ x.isEmpty then 0
  else
    let sums := corrSums x y
    let denominator := sqrt (sums.sumX2 * sums.sumY2)
    if denominator = 0 then 0 else sums.numerator / denominator

/-! ## Sample tables -/

/-- A ragged table: column `A` holds numbers, column `B` text, and the second
row has no cell for `B`. -/
def raggedTable : Table :=
  ⟨["A", "B"], [["1", "x"], ["2"], ["3", "y"]]⟩

/-- A table whose only column has no cell in any row. -/
def hollowTable : Table :=
  ⟨["A"], [[], []]⟩

/-- The table of header `A` and rows `1`, `2`, `3`. -/
def tableA123 : Table :=
  ⟨["A"], [["1"], ["2"], ["3"]]⟩

/-! ## Loading -/

/-- The pieces that repeated calls of `std::getline(stream, piece, delim)`
return until a call fails.  A call reads up to the next delimiter, which it
drops, or up to the end; it fails when the stream is already at its end, so a
delimiter at the very end opens no further piece. -/
def getlinePieces (delim : Char) : List Char → List (List Char)
  | [] => []
  | c :: cs =>
    if c = delim then [] :: getlinePieces delim cs
    else
      match getlinePieces delim cs with
      | [] => [[c]]
      | piece :: pieces => (c :: piece) :: pieces

/-- The characters `loadData` strips from both ends of a cell: blank and tab. -/
def isBlank (c : Char) : Bool :=
  c = ' ' || c = '\t'

/-- The two `erase` calls of `loadData`: leading, then trailing blanks and tabs
are removed. -/
def trimCell (cell : List Char) : List Char :=
  (cell.dropWhile isBlank).rdropWhile isBlank

/-- The inner loop of `loadData`: the trimmed cells of one line. -/
def parseLine (line : List Char) : List String :=
  (getlinePieces ',' line).map (fun cell => String.mk (trimCell cell))

/-- `DataAnalyzer::loadData` on the text of a file that could be opened, the
analyzer being fresh: the first line gives the headers, every further line a
data row. -/
def loadData (text : String) : Table :=
  match (getlinePieces '\n' text.toList).map parseLine with
  | [] => ⟨[], []⟩
  | headers :: data => ⟨headers, data⟩

/-! ## Search -/

/-- `std::string::find(term)` from position 0: the first position at which
`term` starts in `cell`, `none` for `npos`. -/
def strFind (term : List Char) : List Char → Nat → Option Nat
  | [], pos => if term.isPrefixOf [] then some pos else none
  | c :: cs, pos =>
    if term.isPrefixOf (c :: cs) then some pos else strFind term cs (pos + 1)

/-- The test `cell.find(searchTerm) != std::string::npos`. -/
def cellMatches (searchTerm cell : String) : Bool :=
  (strFind searchTerm.toList cell.toList 0).isSome

/-- What `searchData` has reported so far: the indices `i` of the rows printed
(the print shows `i + 1`) and `matchCount`. -/
structure SearchResult where
  reported : List Nat
  matchCount : Nat
deriving DecidableEq

/-- The inner loop of `searchData` over the cells of row `i`, with the flag
`rowMatches`. -/
def searchCells (searchTerm : String) (i : Nat) :
    List String → Bool → SearchResult → Bool × SearchResult
  | [], rowMatches, res => (rowMatches, res)
  | cell :: rest, rowMatches, res =>
    if cellMatches searchTerm cell then
      if !rowMatches then
        searchCells searchTerm i rest true ⟨res.reported ++ [i], res.matchCount + 1⟩
      else searchCells searchTerm i rest rowMatches res
    else searchCells searchTerm i rest rowMatches res

/-- The outer loop of `searchData`, `i` the index of the first row left. -/
def searchRows (searchTerm : String) : List (List String) → Nat → SearchResult → SearchResult
  | [], _, res => res
  | row :: rest, i, res =>
    searchRows searchTerm rest (i + 1) (searchCells searchTerm i row false res).2

/-- `DataAnalyzer::searchData`. -/
def searchData (t : Table) (searchTerm : String) : SearchResult :=
  searchRows searchTerm t.data 0 ⟨[], 0⟩

/-! ## Filtered export -/

/-- The loop writing one record: the fields with a comma after each but the
last. -/
def writeFields : List String → List Char
  | [] => []
  | [field] => field.toList
  | field :: next :: rest => field.toList ++ ',' :: writeFields (next :: rest)

/-- A record followed by `std::endl`. -/
def writeLine (row : List String) : List Char :=
  writeFields row ++ ['\n']

/-- The outcomes of `exportData`: the output file could not be created, or the
file was written and the count of exported rows printed. -/
inductive ExportOutcome where
  | cannotCreate : ExportOutcome
  | exported (file : String) (exportedRows : Nat) : ExportOutcome
deriving DecidableEq

/-- What `exportData` has written so far and its counter `exportedRows`. -/
structure ExportState where
  file : List Char
  exportedRows : Nat

/-- `std::abs` on a `double`. -/
def fabs {α : Type} [Zero α] [Neg α] [LT α] [DecidableRel (fun a b : α => a < b)]
    (x : α) : α :=
  if x < 0 then -x else x

/-- The chain of tests of `exportData` that sets `shouldExport`; the literal
`0.001` is the quotient of 1 and 1000. -/
def shouldExport {α : Type} [Zero α] [One α] [OfNat α 1000] [Sub α] [Div α] [Neg α]
    [LT α] [LE α] [DecidableRel (fun a b : α => a < b)]
    [DecidableRel (fun a b : α => a ≤ b)]
    (condition : String) (cellValue value : α) : Bool :=
  if condition = ">" ∧ cellValue > value then true
  else if condition = "<" ∧ cellValue < value then true
  else if condition = "=" ∧ fabs (cellValue - value) < 1 / 1000 then true
  else if condition = ">=" ∧ cellValue ≥ value then true
  else if condition = "<=" ∧ cellValue ≤ value then true
  else false

/-- The row loop of `exportData`. -/
def exportRows {α : Type} [Zero α] [One α] [OfNat α 1000] [Sub α] [Div α] [Neg α]
    [LT α] [LE α] [DecidableRel (fun a b : α => a < b)]
    [DecidableRel (fun a b : α => a ≤ b)]
    (stod : String → Option α) (columnIndex : Int) (condition : String)
    (value : α) : List (List String) → ExportState → ExportState
  | [], st => st
  | row :: rest, st =>
    if columnIndex ≥ 0 ∧ columnIndex < (row.length : Int) then
      match stod (row.getD columnIndex.toNat "") with
      | some cellValue =>
        if shouldExport condition cellValue value then
          exportRows stod columnIndex condition value rest
            ⟨st.file ++ writeLine row, st.exportedRows + 1⟩
        else exportRows stod columnIndex condition value rest st
      | none => exportRows stod columnIndex condition value rest st
    else exportRows stod columnIndex condition value rest st

/-- `DataAnalyzer::exportData`; `fileOpens` is the result of `file.is_open()`
on the output file. -/
def exportData {α : Type} [Zero α] [One α] [OfNat α 1000] [Sub α] [Div α] [Neg α]
    [LT α] [LE α] [DecidableRel (fun a b : α => a < b)]
    [DecidableRel (fun a b : α => a ≤ b)]
    (stod : String → Option α) (t : Table) (fileOpens : Bool)
    (columnIndex : Int) (condition : String) (value : α) : ExportOutcome :=
  if !fileOpens then .cannotCreate
  else
    let st := exportRows stod columnIndex condition value t.data ⟨writeLine t.headers, 0⟩
    .exported (String.mk st.file) st.exportedRows

/-- The comparison a recognized comparator stands for, as the specification
words it; `none` for any other string. -/
def comparatorHolds {α : Type} [Zero α] [One α] [OfNat α 1000] [Sub α] [Div α] [Neg α]
    [LT α] [LE α] [DecidableRel (fun a b : α => a < b)]
    [DecidableRel (fun a b : α => a ≤ b)]
    (comparator : String) (v threshold : α) : Option Bool :=
  if comparator = ">" then some (decide (v > threshold))
  else if comparator = "<" then some (decide (v < threshold))
  else if comparator = ">=" then some (decide (v ≥ threshold))
  else if comparator = "<=" then some (decide (v ≤ threshold))
  else if comparator = "=" then some (decide (fabs (v - threshold) < 1 / 1000))
  else none

/-- The rows an export selects, as the specification words it: the cell at the
index is present, parses, and the parsed value satisfies the comparator
against the threshold. -/
def rowSelected {α : Type} [Zero α] [One α] [OfNat α 1000] [Sub α] [Div α] [Neg α]
    [LT α] [LE α] [DecidableRel (fun a b : α => a < b)]
    [DecidableRel (fun a b : α => a ≤ b)]
    (stod : String → Option α) (c : Nat) (comparator : String)
    (threshold : α) (row : List String) : Bool :=
  match (row.get? c).bind stod with
  | some v => comparatorHolds comparator v threshold == some true
  | none => false

/-! ## Sample inputs for search, export and frequency analysis -/

/-- A file with the header `A` and one empty line after it. -/
def blankLineText : String :=
  "A\n\n"

/-- A table with two columns of text. -/
def fruitTable : Table :=
  ⟨["name", "note"], [["apple", "red"], ["plum", "ripe apple"], ["pear", "green"]]⟩

/-- A file whose data row has one cell more than the header row. -/
def longRowText : String :=
  "A\n1,5\n"

/-- The cells present at index `c`, in row order. -/
def presentCells (c : Nat) (rows : List (List String)) : List String :=
  rows.filterMap (fun row => row.get? c)

/-- The count the map `frequency` holds for a key, 0 when the key is absent. -/
def frequencyOf (key : String) (frequency : List (String × Nat)) : Nat :=
  ((frequency.filter (fun entry => entry.1 = key)).map Prod.snd).sum

/-- The table of header `Color` and rows `red`, `blue`, `red`. -/
def colorTable : Table :=
  ⟨["Color"], [["red"], ["blue"], ["red"]]⟩

/-- The table of header `X` and rows `b`, `a`. -/
def tableBA : Table :=
  ⟨["X"], [["b"], ["a"]]⟩

/-- The table of header `X` and rows `a`, `b`: the rows of `tableBA` in the
other order. -/
def tableAB : Table :=
  ⟨["X"], [["a"], ["b"]]⟩

/-- What `loadData` leaves of a cell: no comma and no newline in it, nothing for
the trim to remove. -/
def cellClean (cell : String) : Prop :=
  ',' ∉ cell.toList ∧ '\n' ∉ cell.toList ∧ trimCell cell.toList = cell.toList

/-- Every cell of the table, headers included, is as `loadData` leaves a
cell. -/
def tableClean (t : Table) : Prop :=
  (∀ cell ∈ t.headers, cellClean cell) ∧ ∀ row ∈ t.data, ∀ cell ∈ row, cellClean cell

instance cellCleanDecidable (cell : String) : Decidable (cellClean cell) := by
  unfold cellClean
  infer_instance

instance tableCleanDecidable (t : Table) : Decidable (tableClean t) := by
  unfold tableClean
  infer_instance

/-- A file whose first column holds 1, 5, 7 (with blanks) and a word. -/
def mixedText : String :=
  "v,w\n1,a\n5,b\n 7 ,c\nx,d\n"

/-- The table of header `A` and rows `0.1`, `0.1`, `0.1`. -/
def tenthTable : Table :=
  ⟨["A"], [["0.1"], ["0.1"], ["0.1"]]⟩

/-- The table of header `A` and rows `1e-200`, `2e-200`, `3e-200`. -/
def tinyTable : Table :=
  ⟨["A"], [["1e-200"], ["2e-200"], ["3e-200"]]⟩

/-- A table with the constant columns `0.1` and `0.7`. -/
def constantPairTable : Table :=
  ⟨["X", "Y"], [["0.1", "0.7"], ["0.1", "0.7"], ["0.1", "0.7"]]⟩

/-- A table with a name column and the values 1.9995, 2.0, 2.0011. -/
def nearTwoWide : Table :=
  ⟨["id", "v"], [["a", "1.9995"], ["b", "2.0"], ["c", "2.0011"]]⟩

/-- The table of header `v` and the one row `2.001`. -/
def boundaryTable : Table :=
  ⟨["v"], [["2.001"]]⟩

/-! ## Column typing and extraction: proofs -/

theorem stodDecimal_of_parse {α : Type} [LinearOrderedField α] {s : String} {d : Decimal}
    (h : parseDecimal s.toList = some d) : (stodDecimal s : Option α) = some d.toValue := by
  unfold stodDecimal
  rw [h]
  rfl

theorem isNumericRows_iff {α : Type} (stod : String → Option α) (c : Nat)
    (rows : List (List String)) :
    isNumericRows stod (c : Int) rows = true ↔
      ∀ row ∈ rows, ∀ h : c < row.length, (stod (row.get ⟨c, h⟩)).isSome = true := by
  induction rows with
  | nil => simp [isNumericRows]
  | cons row rest ih =>
    simp only [isNumericRows, Int.toNat_ofNat, Nat.cast_lt, List.mem_cons, forall_eq_or_imp]
    by_cases h : c < row.length
    · simp only [h, if_true, List.getD_eq_getElem _ _ h]
      cases hs : stod row[c] with
      | none => simp [hs]
      | some v => simp [hs, ih]
    · simp [h, ih]

theorem getNumericRows_eq {α : Type} (stod : String → Option α) (c : Nat)
    (rows : List (List String)) (values : List α) :
    getNumericRows stod (c : Int) rows values = values ++ presentParsed stod c rows := by
  induction rows generalizing values with
  | nil => simp [getNumericRows, presentParsed]
  | cons row rest ih =>
    simp only [getNumericRows, Int.toNat_ofNat, Nat.cast_lt]
    by_cases h : c < row.length
    · simp only [h, if_true, List.getD_eq_getElem _ _ h]
      cases hs : stod row[c] with
      | none => simp [hs, ih, presentParsed, List.filterMap_cons, List.getElem?_eq_getElem h]
      | some v => simp [hs, ih, presentParsed, List.filterMap_cons, List.getElem?_eq_getElem h]
    · have h2 : row.length ≤ c := Nat.le_of_not_lt h
      simp [h, ih, presentParsed, List.filterMap_cons, List.getElem?_eq_none h2]

theorem valid_index_guard (t : Table) (c : Nat) (hc : c < t.headers.length) :
    ¬ ((c : Int) < 0 ∨ (c : Int) ≥ (t.headers.length : Int)) := by
  omega

theorem isNumericColumn_valid {α : Type} (stod : String → Option α) (t : Table) (c : Nat)
    (hc : c < t.headers.length) :
    isNumericColumn stod t (c : Int) = isNumericRows stod (c : Int) t.data := by
  unfold isNumericColumn
  rw [if_neg (valid_index_guard t c hc)]

theorem getNumericColumn_valid {α : Type} (stod : String → Option α) (t : Table) (c : Nat)
    (hc : c < t.headers.length) :
    getNumericColumn stod t (c : Int) = presentParsed stod c t.data := by
  unfold getNumericColumn
  rw [if_neg (valid_index_guard t c hc), getNumericRows_eq, List.nil_append]

theorem presentParsed_eq_nil_iff {α : Type} (stod : String → Option α) (c : Nat)
    (rows : List (List String)) :
    presentParsed stod c rows = [] ↔
      ∀ row ∈ rows, ∀ h : c < row.length, stod (row.get ⟨c, h⟩) = none := by
  unfold presentParsed
  rw [List.filterMap_eq_nil_iff]
  constructor
  · intro H row hrow h
    have := H row hrow
    simpa [List.getElem?_eq_getElem h] using this
  · intro H row hrow
    by_cases h : c < row.length
    · simpa [List.getElem?_eq_getElem h] using H row hrow h
    · simp [List.getElem?_eq_none (Nat.le_of_not_lt h)]

/-- C1: at a valid column index, `isNumericColumn` is true exactly when every
row that has a cell at the index holds a cell the parse accepts (the parse
`getNumericColumn` is given as well); rows too short for the index are not
failures, and a table without rows is numeric at the index. -/
theorem isNumericColumn_iff_present_cells_parse {α : Type} (stod : String → Option α)
    (t : Table) (c : Nat) (hc : c < t.headers.length) :
    (isNumericColumn stod t (c : Int) = true ↔
      ∀ row ∈ t.data, ∀ h : c < row.length, (stod (row.get ⟨c, h⟩)).isSome = true) ∧
    (t.data = [] → isNumericColumn stod t (c : Int) = true) := by
  rw [isNumericColumn_valid stod t c hc]
  refine ⟨isNumericRows_iff stod c t.data, ?_⟩
  intro hempty
  rw [hempty]
  rfl

/-- Witness for C1 on the ragged sample table, first column. -/
theorem isNumericColumn_iff_present_cells_parse_witness :
    (0 < raggedTable.headers.length) ∧
    ((isNumericColumn (stodDecimal : String → Option ℚ) raggedTable ((0 : Nat) : Int) = true ↔
      ∀ row ∈ raggedTable.data, ∀ h : 0 < row.length,
        ((stodDecimal : String → Option ℚ) (row.get ⟨0, h⟩)).isSome = true) ∧
    (raggedTable.data = [] →
      isNumericColumn (stodDecimal : String → Option ℚ) raggedTable ((0 : Nat) : Int) = true)) :=
  ⟨by decide, isNumericColumn_iff_present_cells_parse stodDecimal raggedTable 0 (by decide)⟩

/-- C2: at a valid column index, `getNumericColumn` is the list, in row order,
of the parsed values of the rows whose cell at the index is present and parses;
absent and unparsable cells add nothing, so the result is no longer than the
table has rows. -/
theorem getNumericColumn_eq_presentParsed {α : Type} (stod : String → Option α)
    (t : Table) (c : Nat) (hc : c < t.headers.length) :
    getNumericColumn stod t (c : Int) = presentParsed stod c t.data ∧
    (getNumericColumn stod t (c : Int)).length ≤ t.data.length := by
  rw [getNumericColumn_valid stod t c hc]
  exact ⟨rfl, List.length_filterMap_le _ _⟩

/-- Witness for C2 on the ragged sample table, second column. -/
theorem getNumericColumn_eq_presentParsed_witness :
    (1 < raggedTable.headers.length) ∧
    (getNumericColumn (stodDecimal : String → Option ℚ) raggedTable ((1 : Nat) : Int)
        = presentParsed stodDecimal 1 raggedTable.data ∧
      (getNumericColumn (stodDecimal : String → Option ℚ) raggedTable ((1 : Nat) : Int)).length
        ≤ raggedTable.data.length) :=
  ⟨by decide, getNumericColumn_eq_presentParsed stodDecimal raggedTable 1 (by decide)⟩

/-- C3: at a valid column index, `analyzeColumn` ends in the no-numeric-data
outcome exactly when no row has a cell at the index; so a column that
`isNumericColumn` accepts has an empty `getNumericColumn` only when no row has
a cell at the index. -/
theorem analyzeColumn_noNumericData_iff {α : Type} [LinearOrderedField α]
    (stod : String → Option α) (sqrt : α → α) (t : Table) (c : Nat)
    (hc : c < t.headers.length) :
    (analyzeColumn stod sqrt t (c : Int) = AnalysisResult.noNumericData ↔
      ∀ row ∈ t.data, row.length ≤ c) ∧
    (isNumericColumn stod t (c : Int) = true → getNumericColumn stod t (c : Int) = [] →
      ∀ row ∈ t.data, row.length ≤ c) := by
  have key : isNumericColumn stod t (c : Int) = true →
      (getNumericColumn stod t (c : Int) = [] ↔ ∀ row ∈ t.data, row.length ≤ c) := by
    intro hnum
    rw [isNumericColumn_valid stod t c hc, isNumericRows_iff] at hnum
    rw [getNumericColumn_valid stod t c hc, presentParsed_eq_nil_iff]
    constructor
    · intro H row hrow
      by_contra hlt
      have h : c < row.length := Nat.lt_of_not_le hlt
      have h1 := hnum row hrow h
      rw [H row hrow h] at h1
      simp at h1
    · intro H row hrow h
      exact absurd (H row hrow) (Nat.not_le_of_lt h)
  refine ⟨?_, fun hnum hnil => (key hnum).1 hnil⟩
  unfold analyzeColumn analyzeColumnWith
  rw [if_neg (valid_index_guard t c hc)]
  cases hnum : isNumericColumn stod t (c : Int) with
  | true =>
    simp only [if_true]
    by_cases hv : getNumericColumn stod t (c : Int) = []
    · simp only [hv, List.isEmpty_nil, if_true, true_iff]
      exact (key hnum).1 hv
    · have hne : (getNumericColumn stod t (c : Int)).isEmpty = false := by
        simpa [List.isEmpty_iff] using hv
      simp only [hne, Bool.false_eq_true, if_false, false_iff, reduceCtorEq]
      exact fun H => hv ((key hnum).2 H)
  | false =>
    simp only [Bool.false_eq_true, if_false, false_iff, reduceCtorEq]
    intro H
    have : isNumericColumn stod t (c : Int) = true := by
      rw [isNumericColumn_valid stod t c hc, isNumericRows_iff]
      intro row hrow h
      exact absurd (H row hrow) (Nat.not_le_of_lt h)
    rw [hnum] at this
    exact absurd this (by simp)

/-- Witness for C3 on the table whose rows are all empty. -/
theorem analyzeColumn_noNumericData_iff_witness :
    (0 < hollowTable.headers.length) ∧
    ((analyzeColumn (stodDecimal : String → Option ℚ) id hollowTable ((0 : Nat) : Int)
        = AnalysisResult.noNumericData ↔ ∀ row ∈ hollowTable.data, row.length ≤ 0) ∧
    (isNumericColumn (stodDecimal : String → Option ℚ) hollowTable ((0 : Nat) : Int) = true →
      getNumericColumn (stodDecimal : String → Option ℚ) hollowTable ((0 : Nat) : Int) = [] →
      ∀ row ∈ hollowTable.data, row.length ≤ 0)) :=
  ⟨by decide, analyzeColumn_noNumericData_iff stodDecimal id hollowTable 0 (by decide)⟩


/-! ## Descriptive statistics: proofs -/

section StatsLemmas

variable {α : Type} [LinearOrderedField α]

theorem foldl_add_map (f : α → α) (l : List α) (a : α) :
    l.foldl (fun acc value => acc + f value) a = a + (l.map f).sum := by
  induction l generalizing a with
  | nil => simp
  | cons x xs ih => simp [List.foldl_cons, ih, add_assoc]

theorem accumulate_eq_sum (l : List α) : accumulate l = l.sum := by
  unfold accumulate
  have := foldl_add_map (fun v : α => v) l 0
  simpa using this

theorem sortValues_perm (l : List α) : (sortValues l).Perm l :=
  List.perm_insertionSort _ l

theorem sortValues_length (l : List α) : (sortValues l).length = l.length :=
  (sortValues_perm l).length_eq

end StatsLemmas

section StatsBounds

variable {α : Type} [LinearOrderedField α]

theorem sortValues_ne_nil (l : List α) (hne : l ≠ []) : sortValues l ≠ [] := by
  intro h
  have := sortValues_length l
  rw [h] at this
  exact hne (List.length_eq_zero.mp this.symm)

end StatsBounds

section Deviation

variable {α : Type} [LinearOrderedField α]

theorem sq_dev_sum_nonneg (l : List α) (m : α) :
    0 ≤ (l.map (fun x => (x - m) * (x - m))).sum := by
  apply List.sum_nonneg
  intro y hy
  obtain ⟨x, _, rfl⟩ := List.mem_map.mp hy
  exact mul_self_nonneg _

theorem sq_dev_sum_eq_zero_iff (l : List α) (m : α) :
    (l.map (fun x => (x - m) * (x - m))).sum = 0 ↔ ∀ x ∈ l, x = m := by
  induction l with
  | nil => simp
  | cons a rest ih =>
    simp only [List.map_cons, List.sum_cons, List.mem_cons, forall_eq_or_imp]
    rw [add_eq_zero_iff_of_nonneg (mul_self_nonneg _) (sq_dev_sum_nonneg rest m), ih,
      mul_self_eq_zero, sub_eq_zero]

theorem varianceOf_eq (s : List α) (m : α) :
    varianceOf s m = (s.map (fun x => (x - m) * (x - m))).sum / (s.length : α) := by
  unfold varianceOf
  rw [foldl_add_map (fun x => (x - m) * (x - m)) s 0, zero_add]

theorem mean_of_constant (s : List α) (a : α) (hne : s ≠ []) (h : ∀ x ∈ s, x = a) :
    accumulate s / (s.length : α) = a := by
  have hn : ((s.length : α)) ≠ 0 :=
    Nat.cast_ne_zero.mpr (Nat.pos_iff_ne_zero.mp (List.length_pos.mpr hne))
  rw [accumulate_eq_sum, List.sum_eq_card_nsmul s a h, nsmul_eq_mul]
  field_simp

theorem all_eq_mean_iff_identical (s : List α) (hne : s ≠ []) :
    (∀ x ∈ s, x = accumulate s / (s.length : α)) ↔ ∀ a ∈ s, ∀ b ∈ s, a = b := by
  constructor
  · intro h a ha b hb
    rw [h a ha, h b hb]
  · intro h x hx
    exact (mean_of_constant s x hne (fun y hy => h y hy x hx)).symm

end Deviation

set_option maxRecDepth 100000 in
/-- C5 (as stated, refuted): on doubles the identical values 0.1, 0.1, 0.1 have
the mean 0.10000000000000002 and the standard deviation `2 ^ -56`, not 0; the
distinct values 1e-200, 2e-200, 3e-200 have squared deviations that round to
nothing and the standard deviation 0. -/
theorem numericStats_stdDev_counterexample :
    getNumericColumn stodDouble tenthTable ((0 : Nat) : Int) ≠ [] ∧
    (∀ a ∈ getNumericColumn stodDouble tenthTable ((0 : Nat) : Int),
      ∀ b ∈ getNumericColumn stodDouble tenthTable ((0 : Nat) : Int), a = b) ∧
    (numericStats F64.sqrt (getNumericColumn stodDouble tenthTable ((0 : Nat) : Int))).stdDev
      = F64.fin 4503599627370496 (-108) ∧
    (numericStats F64.sqrt (getNumericColumn stodDouble tenthTable ((0 : Nat) : Int))).stdDev
      ≠ 0 ∧
    getNumericColumn stodDouble tinyTable ((0 : Nat) : Int) ≠ [] ∧
    ¬ (∀ a ∈ getNumericColumn stodDouble tinyTable ((0 : Nat) : Int),
      ∀ b ∈ getNumericColumn stodDouble tinyTable ((0 : Nat) : Int), a = b) ∧
    (numericStats F64.sqrt (getNumericColumn stodDouble tinyTable ((0 : Nat) : Int))).stdDev
      = 0 := by
  have h1 : getNumericColumn stodDouble tenthTable ((0 : Nat) : Int)
      = [F64.fin 7205759403792794 (-56), F64.fin 7205759403792794 (-56),
          F64.fin 7205759403792794 (-56)] := by decide
  have h2 : getNumericColumn stodDouble tinyTable ((0 : Nat) : Int)
      = [F64.fin 6894565328877484 (-717), F64.fin 6894565328877484 (-716),
          F64.fin 5170923996658113 (-715)] := by decide
  rw [h1, h2]
  refine ⟨by decide, by decide, by decide, by decide, by decide, by decide, by decide⟩

/-- C5 (amended): in exact arithmetic, the doubles read as real numbers, for a
non-empty sequence of extracted values the standard deviation `analyzeColumn`
computes is 0 exactly when all the values are identical. -/
theorem numericStats_stdDev_eq_zero_iff (extracted : List ℝ) (hne : extracted ≠ []) :
    (numericStats Real.sqrt extracted).stdDev = 0 ↔
      ∀ a ∈ extracted, ∀ b ∈ extracted, a = b := by
  have hs := sortValues_ne_nil extracted hne
  have hpos : (0 : ℝ) < ((sortValues extracted).length : ℝ) :=
    Nat.cast_pos.mpr (List.length_pos.mpr hs)
  have hmem : ∀ x, x ∈ sortValues extracted ↔ x ∈ extracted :=
    fun x => (sortValues_perm extracted).mem_iff
  simp only [numericStats]
  rw [Real.sqrt_eq_zero', varianceOf_eq, div_le_iff₀ hpos, zero_mul]
  rw [(sq_dev_sum_nonneg _ _).le_iff_eq, sq_dev_sum_eq_zero_iff,
    all_eq_mean_iff_identical _ hs]
  constructor
  · intro h a ha b hb
    exact h a ((hmem a).2 ha) b ((hmem b).2 hb)
  · intro h a ha b hb
    exact h a ((hmem a).1 ha) b ((hmem b).1 hb)

/-- Witness for C5 on the values 1, 2, 3. -/
theorem numericStats_stdDev_eq_zero_iff_witness :
    ([1, 2, 3] : List ℝ) ≠ [] ∧
    ((numericStats Real.sqrt ([1, 2, 3] : List ℝ)).stdDev = 0 ↔
      ∀ a ∈ ([1, 2, 3] : List ℝ), ∀ b ∈ ([1, 2, 3] : List ℝ), a = b) :=
  ⟨by simp, numericStats_stdDev_eq_zero_iff [1, 2, 3] (by simp)⟩

section Formulas

variable {α : Type} [LinearOrderedField α]

end Formulas

section CorrLemmas

variable {α : Type} [LinearOrderedField α]

theorem foldl_corrStep (x y : List α) (mx my : α) (n : Nat) (s : CorrSums α) :
    (List.range n).foldl (corrStep x y mx my) s
      = { numerator := s.numerator
            + ∑ i in Finset.range n, (x.getD i 0 - mx) * (y.getD i 0 - my)
          sumX2 := s.sumX2 + ∑ i in Finset.range n, (x.getD i 0 - mx) * (x.getD i 0 - mx)
          sumY2 := s.sumY2 + ∑ i in Finset.range n, (y.getD i 0 - my) * (y.getD i 0 - my) } := by
  induction n with
  | zero => simp
  | succ k ih =>
    rw [List.range_succ, List.foldl_append, ih]
    simp only [List.foldl_cons, List.foldl_nil, corrStep, Finset.sum_range_succ, add_assoc]

theorem corrSums_numerator (x y : List α) :
    (corrSums x y).numerator
      = ∑ i in Finset.range x.length,
          (x.getD i 0 - accumulate x / (x.length : α))
            * (y.getD i 0 - accumulate y / (y.length : α)) := by
  simp only [corrSums, foldl_corrStep, zero_add]

theorem corrSums_sumX2 (x y : List α) :
    (corrSums x y).sumX2
      = ∑ i in Finset.range x.length,
          (x.getD i 0 - accumulate x / (x.length : α))
            * (x.getD i 0 - accumulate x / (x.length : α)) := by
  simp only [corrSums, foldl_corrStep, zero_add]

theorem corrSums_sumY2 (x y : List α) :
    (corrSums x y).sumY2
      = ∑ i in Finset.range x.length,
          (y.getD i 0 - accumulate y / (y.length : α))
            * (y.getD i 0 - accumulate y / (y.length : α)) := by
  simp only [corrSums, foldl_corrStep, zero_add]

theorem corrSums_sumX2_nonneg (x y : List α) : 0 ≤ (corrSums x y).sumX2 := by
  rw [corrSums_sumX2]
  exact Finset.sum_nonneg (fun i _ => mul_self_nonneg _)

theorem corrSums_sumY2_nonneg (x y : List α) : 0 ≤ (corrSums x y).sumY2 := by
  rw [corrSums_sumY2]
  exact Finset.sum_nonneg (fun i _ => mul_self_nonneg _)

theorem cauchy_schwarz_corrSums (x y : List α) :
    (corrSums x y).numerator ^ 2 ≤ (corrSums x y).sumX2 * (corrSums x y).sumY2 := by
  rw [corrSums_numerator, corrSums_sumX2, corrSums_sumY2]
  have := Finset.sum_mul_sq_le_sq_mul_sq (Finset.range x.length)
    (fun i => x.getD i 0 - accumulate x / (x.length : α))
    (fun i => y.getD i 0 - accumulate y / (y.length : α))
  simpa only [sq] using this

end CorrLemmas

/-- C7: `calculateCorrelation(x, y)` lies in the closed interval [-1, 1] over
the reals, for sequences of equal length that are not empty and for every other
pair as well. -/
theorem calculateCorrelation_mem_Icc (x y : List ℝ) :
    -1 ≤ calculateCorrelation Real.sqrt x y ∧ calculateCorrelation Real.sqrt x y ≤ 1 := by
  unfold calculateCorrelation
  by_cases hguard : x.length ≠ y.length ∨ x.isEmpty = true
  · rw [if_pos hguard]
    norm_num
  · rw [if_neg hguard]
    by_cases hden : Real.sqrt ((corrSums x y).sumX2 * (corrSums x y).sumY2) = 0
    · simp only [hden, if_true]
      norm_num
    · simp only [hden, if_false]
      have hcs := cauchy_schwarz_corrSums x y
      have habs : |(corrSums x y).numerator|
          ≤ Real.sqrt ((corrSums x y).sumX2 * (corrSums x y).sumY2) := Real.abs_le_sqrt hcs
      have hpos : 0 < Real.sqrt ((corrSums x y).sumX2 * (corrSums x y).sumY2) :=
        lt_of_le_of_ne (Real.sqrt_nonneg _) (Ne.symm hden)
      rw [← abs_le, abs_div, abs_of_pos hpos]
      exact (div_le_one hpos).mpr habs

section CorrConstant

variable {α : Type} [LinearOrderedField α]

theorem sum_eq_sum_range_getD (l : List α) :
    l.sum = ∑ i in Finset.range l.length, l.getD i 0 := by
  induction l with
  | nil => simp
  | cons a rest ih =>
    rw [List.length_cons, Finset.sum_range_succ', List.sum_cons, ih, add_comm]
    simp

theorem getD_mem_of_lt (l : List α) (i : Nat) (hi : i < l.length) : l.getD i 0 ∈ l := by
  rw [List.getD_eq_getElem _ _ hi]
  exact List.getElem_mem hi

theorem sum_sq_dev_range_eq_zero_of_constant (l : List α) (n : Nat) (hn : n = l.length)
    (hconst : ∀ a ∈ l, ∀ b ∈ l, a = b) :
    ∑ i in Finset.range n,
      (l.getD i 0 - accumulate l / (l.length : α))
        * (l.getD i 0 - accumulate l / (l.length : α)) = 0 := by
  apply Finset.sum_eq_zero
  intro i hi
  have hi2 : i < l.length := by
    rw [← hn]
    exact Finset.mem_range.mp hi
  have hne : l ≠ [] := by
    intro h
    simp [h] at hi2
  have hmem := getD_mem_of_lt l i hi2
  rw [mean_of_constant l (l.getD i 0) hne (fun v hv => hconst v hv _ hmem), sub_self, mul_zero]

theorem sum_sq_dev_range_pos_of_not_constant (l : List α)
    (hvar : ∃ u ∈ l, ∃ v ∈ l, u ≠ v) :
    0 < ∑ i in Finset.range l.length,
      (l.getD i 0 - accumulate l / (l.length : α))
        * (l.getD i 0 - accumulate l / (l.length : α)) := by
  have hnonneg : ∀ i ∈ Finset.range l.length,
      0 ≤ (l.getD i 0 - accumulate l / (l.length : α))
        * (l.getD i 0 - accumulate l / (l.length : α)) := fun i _ => mul_self_nonneg _
  refine lt_of_le_of_ne (Finset.sum_nonneg hnonneg) (fun hzero => ?_)
  have hall := (Finset.sum_eq_zero_iff_of_nonneg hnonneg).1 hzero.symm
  have hmean : ∀ w ∈ l, w = accumulate l / (l.length : α) := by
    intro w hw
    obtain ⟨i, hi, rfl⟩ := List.getElem_of_mem hw
    have := hall i (Finset.mem_range.mpr hi)
    rw [List.getD_eq_getElem _ _ hi, mul_self_eq_zero, sub_eq_zero] at this
    exact this
  obtain ⟨u, hu, v, hv, huv⟩ := hvar
  exact huv ((hmean u hu).trans (hmean v hv).symm)

theorem sum_map_affine (l : List α) (a b : α) :
    (l.map (fun t => a * t + b)).sum = a * l.sum + (l.length : α) * b := by
  induction l with
  | nil => simp
  | cons c rest ih =>
    simp only [List.map_cons, List.sum_cons, List.length_cons, Nat.cast_succ, ih]
    ring

theorem mean_map_affine (l : List α) (a b : α) (hne : l ≠ []) :
    accumulate (l.map (fun t => a * t + b)) / ((l.map (fun t => a * t + b)).length : α)
      = a * (accumulate l / (l.length : α)) + b := by
  have hn : ((l.length : α)) ≠ 0 :=
    Nat.cast_ne_zero.mpr (Nat.pos_iff_ne_zero.mp (List.length_pos.mpr hne))
  rw [accumulate_eq_sum, accumulate_eq_sum, sum_map_affine, List.length_map]
  field_simp
  ring

theorem getD_map_affine (l : List α) (a b : α) (i : Nat) (hi : i < l.length) :
    (l.map (fun t => a * t + b)).getD i 0 = a * l.getD i 0 + b := by
  rw [List.getD_eq_getElem _ _ (by simpa using hi), List.getD_eq_getElem _ _ hi,
    List.getElem_map]

end CorrConstant

theorem calculateCorrelation_affine (x : List ℝ) (a b : ℝ) (ha : 0 < a)
    (hvar : ∃ u ∈ x, ∃ v ∈ x, u ≠ v) :
    calculateCorrelation Real.sqrt x (x.map (fun t => a * t + b)) = 1 := by
  have hne : x ≠ [] := by
    obtain ⟨u, hu, -⟩ := hvar
    exact List.ne_nil_of_mem hu
  have hX := sum_sq_dev_range_pos_of_not_constant x hvar
  have hguard : ¬ (x.length ≠ (x.map (fun t => a * t + b)).length ∨ x.isEmpty = true) := by
    simp [hne]
  have hdy : ∀ i ∈ Finset.range x.length,
      (x.map (fun t => a * t + b)).getD i 0
        - accumulate (x.map (fun t => a * t + b))
          / ((x.map (fun t => a * t + b)).length : ℝ)
      = a * (x.getD i 0 - accumulate x / (x.length : ℝ)) := by
    intro i hi
    rw [mean_map_affine x a b hne, getD_map_affine x a b i (Finset.mem_range.mp hi)]
    ring
  have hN : (corrSums x (x.map (fun t => a * t + b))).numerator
      = a * (corrSums x (x.map (fun t => a * t + b))).sumX2 := by
    rw [corrSums_numerator, corrSums_sumX2, Finset.mul_sum]
    refine Finset.sum_congr rfl (fun i hi => ?_)
    rw [hdy i hi]
    ring
  have hY : (corrSums x (x.map (fun t => a * t + b))).sumY2
      = a * a * (corrSums x (x.map (fun t => a * t + b))).sumX2 := by
    rw [corrSums_sumY2, corrSums_sumX2, Finset.mul_sum]
    refine Finset.sum_congr rfl (fun i hi => ?_)
    rw [hdy i hi]
    ring
  have hXpos : 0 < (corrSums x (x.map (fun t => a * t + b))).sumX2 := by
    rw [corrSums_sumX2]
    exact hX
  have hden : Real.sqrt ((corrSums x (x.map (fun t => a * t + b))).sumX2
      * (corrSums x (x.map (fun t => a * t + b))).sumY2)
      = a * (corrSums x (x.map (fun t => a * t + b))).sumX2 := by
    rw [hY, show (corrSums x (x.map (fun t => a * t + b))).sumX2
        * (a * a * (corrSums x (x.map (fun t => a * t + b))).sumX2)
      = (a * (corrSums x (x.map (fun t => a * t + b))).sumX2)
        * (a * (corrSums x (x.map (fun t => a * t + b))).sumX2) by ring]
    exact Real.sqrt_mul_self (le_of_lt (mul_pos ha hXpos))
  have hnz : a * (corrSums x (x.map (fun t => a * t + b))).sumX2 ≠ 0 :=
    ne_of_gt (mul_pos ha hXpos)
  unfold calculateCorrelation
  rw [if_neg hguard]
  simp only [hden, hnz, if_false, hN]
  exact div_self hnz

/-- C8: over the reals, `calculateCorrelation(x, x) = 1` for every sequence `x`
that is not constant, and `calculateCorrelation(x, y) = 1` whenever
`y_i = a * x_i + b` with `a > 0`; X = [1, 2, 3] and Y = [2, 4, 6] give
exactly 1. -/
theorem calculateCorrelation_eq_one :
    (∀ x : List ℝ, (∃ u ∈ x, ∃ v ∈ x, u ≠ v) → calculateCorrelation Real.sqrt x x = 1) ∧
    (∀ (x : List ℝ) (a b : ℝ), 0 < a → (∃ u ∈ x, ∃ v ∈ x, u ≠ v) →
      calculateCorrelation Real.sqrt x (x.map (fun t => a * t + b)) = 1) ∧
    calculateCorrelation Real.sqrt [1, 2, 3] [2, 4, 6] = 1 := by
  refine ⟨fun x hvar => ?_, fun x a b ha hvar => calculateCorrelation_affine x a b ha hvar, ?_⟩
  · have h := calculateCorrelation_affine x 1 0 one_pos hvar
    simpa using h
  · have hvar : ∃ u ∈ ([1, 2, 3] : List ℝ), ∃ v ∈ ([1, 2, 3] : List ℝ), u ≠ v :=
      ⟨1, by simp, 2, by simp, by norm_num⟩
    have h := calculateCorrelation_affine [1, 2, 3] 2 0 two_pos hvar
    have hmap : ([1, 2, 3] : List ℝ).map (fun t => 2 * t + 0) = [2, 4, 6] := by
      norm_num
    rwa [hmap] at h

/-- Witness for C8 on X = [1, 2] and Y = 3 * X + 1 = [4, 7]. -/
theorem calculateCorrelation_eq_one_witness :
    (0 : ℝ) < 3 ∧ (∃ u ∈ ([1, 2] : List ℝ), ∃ v ∈ ([1, 2] : List ℝ), u ≠ v) ∧
    calculateCorrelation Real.sqrt [1, 2] [4, 7] = 1 := by
  have hvar : ∃ u ∈ ([1, 2] : List ℝ), ∃ v ∈ ([1, 2] : List ℝ), u ≠ v :=
    ⟨1, by simp, 2, by simp, by norm_num⟩
  have h := calculateCorrelation_eq_one.2.1 [1, 2] 3 1 (by norm_num) hvar
  have hmap : ([1, 2] : List ℝ).map (fun t => 3 * t + 1) = [4, 7] := by
    norm_num
  rw [hmap] at h
  exact ⟨by norm_num, hvar, h⟩

/-- C10 (as stated, refuted): on doubles the constant sequences 0.1, 0.1, 0.1
and 0.7, 0.7, 0.7 have means that differ from their elements, the denominator
is not 0, the division is performed and the result is -1. -/
theorem calculateCorrelation_constant_counterexample :
    (getNumericColumn stodDouble constantPairTable ((0 : Nat) : Int)).length
      = (getNumericColumn stodDouble constantPairTable ((1 : Nat) : Int)).length ∧
    getNumericColumn stodDouble constantPairTable ((0 : Nat) : Int) ≠ [] ∧
    (∀ a ∈ getNumericColumn stodDouble constantPairTable ((0 : Nat) : Int),
      ∀ b ∈ getNumericColumn stodDouble constantPairTable ((0 : Nat) : Int), a = b) ∧
    (∀ a ∈ getNumericColumn stodDouble constantPairTable ((1 : Nat) : Int),
      ∀ b ∈ getNumericColumn stodDouble constantPairTable ((1 : Nat) : Int), a = b) ∧
    F64.sqrt
        ((corrSums (getNumericColumn stodDouble constantPairTable ((0 : Nat) : Int))
            (getNumericColumn stodDouble constantPairTable ((1 : Nat) : Int))).sumX2
          * (corrSums (getNumericColumn stodDouble constantPairTable ((0 : Nat) : Int))
            (getNumericColumn stodDouble constantPairTable ((1 : Nat) : Int))).sumY2)
      ≠ 0 ∧
    calculateCorrelation F64.sqrt
        (getNumericColumn stodDouble constantPairTable ((0 : Nat) : Int))
        (getNumericColumn stodDouble constantPairTable ((1 : Nat) : Int))
      = F64.fin (-4503599627370496) (-52) ∧
    calculateCorrelation F64.sqrt
        (getNumericColumn stodDouble constantPairTable ((0 : Nat) : Int))
        (getNumericColumn stodDouble constantPairTable ((1 : Nat) : Int))
      ≠ 0 := by
  have h1 : getNumericColumn stodDouble constantPairTable ((0 : Nat) : Int)
      = [F64.fin 7205759403792794 (-56), F64.fin 7205759403792794 (-56),
          F64.fin 7205759403792794 (-56)] := by decide
  have h2 : getNumericColumn stodDouble constantPairTable ((1 : Nat) : Int)
      = [F64.fin 6305039478318694 (-53), F64.fin 6305039478318694 (-53),
          F64.fin 6305039478318694 (-53)] := by decide
  rw [h1, h2]
  refine ⟨by decide, by decide, by decide, by decide, by decide, by decide, by decide⟩

/-- C10 (amended): over the reals, for sequences of equal length that are not
empty, one of them constant, the denominator `sqrt(sumX2 * sumY2)` is 0 and
`calculateCorrelation` returns 0 without dividing. -/
theorem calculateCorrelation_constant (x y : List ℝ) (hlen : x.length = y.length)
    (hne : x ≠ [])
    (hconst : (∀ a ∈ x, ∀ b ∈ x, a = b) ∨ (∀ a ∈ y, ∀ b ∈ y, a = b)) :
    Real.sqrt ((corrSums x y).sumX2 * (corrSums x y).sumY2) = 0 ∧
    calculateCorrelation Real.sqrt x y = 0 := by
  have hden : Real.sqrt ((corrSums x y).sumX2 * (corrSums x y).sumY2) = 0 := by
    rcases hconst with hx | hy
    · have : (corrSums x y).sumX2 = 0 := by
        rw [corrSums_sumX2]
        exact sum_sq_dev_range_eq_zero_of_constant x x.length rfl hx
      rw [this, zero_mul, Real.sqrt_zero]
    · have : (corrSums x y).sumY2 = 0 := by
        rw [corrSums_sumY2]
        exact sum_sq_dev_range_eq_zero_of_constant y x.length hlen hy
      rw [this, mul_zero, Real.sqrt_zero]
  refine ⟨hden, ?_⟩
  unfold calculateCorrelation
  have hguard : ¬ (x.length ≠ y.length ∨ x.isEmpty = true) := by
    simp [hlen, hne]
  rw [if_neg hguard]
  simp only [hden, if_true]

/-- Witness for C10 (amended) on the constant X = [0.1, 0.1, 0.1] and
Y = [0.7, 0.7, 0.7], read as real numbers. -/
theorem calculateCorrelation_constant_witness :
    ([0.1, 0.1, 0.1] : List ℝ).length = ([0.7, 0.7, 0.7] : List ℝ).length ∧
    ([0.1, 0.1, 0.1] : List ℝ) ≠ [] ∧
    (∀ a ∈ ([0.1, 0.1, 0.1] : List ℝ), ∀ b ∈ ([0.1, 0.1, 0.1] : List ℝ), a = b) ∧
    Real.sqrt ((corrSums ([0.1, 0.1, 0.1] : List ℝ) [0.7, 0.7, 0.7]).sumX2
      * (corrSums ([0.1, 0.1, 0.1] : List ℝ) [0.7, 0.7, 0.7]).sumY2) = 0 ∧
    calculateCorrelation Real.sqrt [0.1, 0.1, 0.1] [0.7, 0.7, 0.7] = 0 := by
  have hconst : ∀ a ∈ ([0.1, 0.1, 0.1] : List ℝ), ∀ b ∈ ([0.1, 0.1, 0.1] : List ℝ),
      a = b := by
    intro a ha b hb
    simp only [List.mem_cons, List.mem_singleton, or_self, List.not_mem_nil, or_false] at ha hb
    rw [ha, hb]
  exact ⟨rfl, by simp, hconst,
    calculateCorrelation_constant [0.1, 0.1, 0.1] [0.7, 0.7, 0.7] rfl (by simp)
      (Or.inl hconst)⟩

/-! ## Search: proofs -/

theorem strFind_isSome_iff (term cell : List Char) (pos : Nat) :
    (strFind term cell pos).isSome = true ↔ term <:+: cell := by
  induction cell generalizing pos with
  | nil =>
    unfold strFind
    by_cases h : term.isPrefixOf [] = true
    · rw [if_pos h]
      simpa using (List.isPrefixOf_iff_prefix.mp h).isInfix
    · rw [if_neg h]
      simp only [Option.isSome_none, Bool.false_eq_true, false_iff]
      intro hin
      apply h
      rw [List.isPrefixOf_iff_prefix]
      rw [List.infix_nil] at hin
      rw [hin]
  | cons c cs ih =>
    unfold strFind
    rw [List.infix_cons_iff]
    by_cases h : term.isPrefixOf (c :: cs) = true
    · rw [if_pos h]
      simpa using Or.inl (List.isPrefixOf_iff_prefix.mp h)
    · rw [if_neg h, ih]
      constructor
      · exact Or.inr
      · rintro (hp | hi)
        · exact absurd (List.isPrefixOf_iff_prefix.mpr hp) h
        · exact hi

/-- The test of `searchData` on one row: some cell contains the term. -/
theorem searchCells_eq (term : String) (i : Nat) (cells : List String) (flag : Bool)
    (res : SearchResult) :
    searchCells term i cells flag res
      = (flag || cells.any (cellMatches term),
         if (!flag && cells.any (cellMatches term)) = true
         then ⟨res.reported ++ [i], res.matchCount + 1⟩ else res) := by
  induction cells generalizing flag res with
  | nil => simp [searchCells]
  | cons cell rest ih =>
    unfold searchCells
    by_cases hit : cellMatches term cell = true
    · cases flag <;> simp [hit, ih]
    · cases flag <;> simp [hit, ih]

theorem searchRows_eq (term : String) (rows : List (List String)) (i : Nat)
    (res : SearchResult) :
    searchRows term rows i res
      = ⟨res.reported ++ (List.range' i rows.length).filter
            (fun k => (rows.getD (k - i) []).any
              (cellMatches term)),
          res.matchCount + ((List.range' i rows.length).filter
            (fun k => (rows.getD (k - i) []).any
              (cellMatches term))).length⟩ := by
  induction rows generalizing i res with
  | nil => simp [searchRows]
  | cons row rest ih =>
    have hshift : (List.range' (i + 1) rest.length).filter
        (fun k => ((row :: rest).getD (k - i) []).any
          (cellMatches term))
        = (List.range' (i + 1) rest.length).filter
        (fun k => (rest.getD (k - (i + 1)) []).any
          (cellMatches term)) := by
      apply List.filter_congr
      intro k hk
      have hk1 : i + 1 ≤ k := (List.mem_range'_1.mp hk).1
      have : k - i = (k - (i + 1)) + 1 := by omega
      rw [this, List.getD_cons_succ]
    unfold searchRows
    rw [ih, searchCells_eq, List.length_cons, List.range'_succ, List.filter_cons, hshift]
    by_cases hrow : row.any (cellMatches term) = true
    · simp [hrow, Nat.add_assoc, Nat.add_comm 1]
    · simp [hrow]

theorem searchData_eq (t : Table) (term : String) :
    searchData t term
      = ⟨(List.range t.data.length).filter
            (fun k => (t.data.getD k []).any (cellMatches term)),
          ((List.range t.data.length).filter
            (fun k => (t.data.getD k []).any (cellMatches term))).length⟩ := by
  unfold searchData
  rw [searchRows_eq, List.range_eq_range']
  simp

theorem cellMatches_iff (term cell : String) :
    cellMatches term cell = true ↔ term.toList <:+: cell.toList :=
  strFind_isSome_iff term.toList cell.toList 0

theorem mem_reported_iff (t : Table) (term : String) (i : Nat) :
    i ∈ (searchData t term).reported ↔
      i < t.data.length ∧ ∃ cell ∈ t.data.getD i [], cellMatches term cell = true := by
  rw [searchData_eq]
  simp only [List.mem_filter, List.mem_range, List.any_eq_true]

theorem reported_pairwise_lt (t : Table) (term : String) :
    (searchData t term).reported.Pairwise (fun a b => a < b) := by
  rw [searchData_eq]
  exact (List.pairwise_lt_range _).sublist (List.filter_sublist _)

theorem matchCount_eq_length (t : Table) (term : String) :
    (searchData t term).matchCount = (searchData t term).reported.length := by
  rw [searchData_eq]

/-- C12: the rows `searchData` reports are exactly the rows in which some cell
contains the term as a contiguous substring, character for character; they are
listed in strictly increasing row order, so each once; the match count is the
number of reported rows; a term that no cell contains gives no row and count
0. -/
theorem searchData_reports_matching_rows (t : Table) (term : String) :
    (∀ i, i ∈ (searchData t term).reported ↔
      i < t.data.length ∧ ∃ cell ∈ t.data.getD i [], term.toList <:+: cell.toList) ∧
    (searchData t term).reported.Pairwise (fun a b => a < b) ∧
    (searchData t term).matchCount = (searchData t term).reported.length ∧
    ((∀ row ∈ t.data, ∀ cell ∈ row, ¬ term.toList <:+: cell.toList) →
      (searchData t term).reported = [] ∧ (searchData t term).matchCount = 0) := by
  have hmem : ∀ i, i ∈ (searchData t term).reported ↔
      i < t.data.length ∧ ∃ cell ∈ t.data.getD i [], term.toList <:+: cell.toList := by
    intro i
    rw [mem_reported_iff]
    simp only [cellMatches_iff]
  refine ⟨hmem, reported_pairwise_lt t term, matchCount_eq_length t term, ?_⟩
  intro hnone
  have hnil : (searchData t term).reported = [] := by
    apply List.eq_nil_iff_forall_not_mem.mpr
    intro i hi
    obtain ⟨hlt, cell, hcell, hin⟩ := (hmem i).1 hi
    rw [List.getD_eq_getElem _ _ hlt] at hcell
    exact hnone _ (List.getElem_mem hlt) cell hcell hin
  refine ⟨hnil, ?_⟩
  rw [matchCount_eq_length, hnil]
  rfl

/-- Witness for C12: searching `apple` in the fruit table reports rows 0 and 1
(the second through its note) and counts 2; searching `kiwi` reports nothing. -/
theorem searchData_reports_matching_rows_witness :
    searchData fruitTable "apple" = ⟨[0, 1], 2⟩ ∧ searchData fruitTable "kiwi" = ⟨[], 0⟩ ∧
    (∀ i, i ∈ (searchData fruitTable "apple").reported ↔
      i < fruitTable.data.length ∧
        ∃ cell ∈ fruitTable.data.getD i [], "apple".toList <:+: cell.toList) :=
  ⟨by decide, by decide, (searchData_reports_matching_rows fruitTable "apple").1⟩

/-- C11 (as stated, refuted): the file `A`, empty line loads as one data row
without cells, and `searchData` with the empty term reports no row and counts
0, not the one row of the table. -/
theorem searchData_empty_term_counterexample :
    (loadData blankLineText).headers = ["A"] ∧ (loadData blankLineText).data = [[]] ∧
    (searchData (loadData blankLineText) "").reported
      ≠ List.range (loadData blankLineText).data.length ∧
    (searchData (loadData blankLineText) "").matchCount
      ≠ (loadData blankLineText).data.length := by
  decide

/-- C11 (amended): with the empty search term `searchData` reports exactly the
rows that have at least one cell, in increasing row order, and counts them;
when no row of the table is empty these are all row indices 0..rows-1 and the
count is the number of rows. -/
theorem searchData_empty_term (t : Table) :
    (∀ i, i ∈ (searchData t "").reported ↔ i < t.data.length ∧ t.data.getD i [] ≠ []) ∧
    (searchData t "").reported.Pairwise (fun a b => a < b) ∧
    (searchData t "").matchCount = (searchData t "").reported.length ∧
    ((∀ row ∈ t.data, row ≠ []) →
      (searchData t "").reported = List.range t.data.length ∧
      (searchData t "").matchCount = t.data.length) := by
  have hany : ∀ row : List String, row.any (cellMatches "") = true ↔ row ≠ [] := by
    intro row
    cases row with
    | nil => simp
    | cons cell rest =>
      have : cellMatches "" cell = true := (cellMatches_iff "" cell).2 List.nil_infix
      simp [this]
  refine ⟨fun i => ?_, reported_pairwise_lt t "", matchCount_eq_length t "", fun hall => ?_⟩
  · rw [mem_reported_iff, ← List.any_eq_true, hany]
  · have hfilter : (List.range t.data.length).filter
          (fun k => (t.data.getD k []).any (cellMatches ""))
        = List.range t.data.length := by
      rw [List.filter_eq_self]
      intro k hk
      have hlt : k < t.data.length := List.mem_range.mp hk
      rw [hany, List.getD_eq_getElem _ _ hlt]
      exact hall _ (List.getElem_mem hlt)
    rw [searchData_eq]
    simp only [hfilter, List.length_range, and_self]

/-- Witness for C11 (amended): in the fruit table no row is empty, and the
empty term reports all three rows. -/
theorem searchData_empty_term_witness :
    (∀ row ∈ fruitTable.data, row ≠ []) ∧
    (searchData fruitTable "").reported = List.range fruitTable.data.length ∧
    (searchData fruitTable "").matchCount = fruitTable.data.length :=
  ⟨by decide, (searchData_empty_term fruitTable).2.2.2 (by decide)⟩

/-! ## Filtered export: proofs -/

theorem fabs_eq_abs {α : Type} [LinearOrderedField α] (x : α) : fabs x = |x| := by
  unfold fabs
  split
  · rename_i h
    exact (abs_of_neg h).symm
  · rename_i h
    exact (abs_of_nonneg (not_lt.mp h)).symm

section ExportLemmas

variable {α : Type} [Zero α] [One α] [OfNat α 1000] [Sub α] [Div α] [Neg α] [LT α] [LE α]
  [DecidableRel (fun a b : α => a < b)] [DecidableRel (fun a b : α => a ≤ b)]

theorem shouldExport_recognized (comparator : String) (v threshold : α)
    (hcmp : comparator ∈ [">", "<", "=", ">=", "<="]) :
    comparatorHolds comparator v threshold = some (shouldExport comparator v threshold) := by
  simp only [List.mem_cons, List.mem_singleton, List.not_mem_nil, or_false] at hcmp
  rcases hcmp with h | h | h | h | h <;> subst h <;>
    simp [comparatorHolds, shouldExport]

theorem shouldExport_unrecognized (comparator : String) (v threshold : α)
    (hcmp : comparator ∉ [">", "<", "=", ">=", "<="]) :
    shouldExport comparator v threshold = false ∧
    comparatorHolds comparator v threshold = none := by
  simp only [List.mem_cons, List.mem_singleton, List.not_mem_nil, or_false, not_or] at hcmp
  obtain ⟨h1, h2, h3, h4, h5⟩ := hcmp
  simp [comparatorHolds, shouldExport, h1, h2, h3, h4, h5]

theorem shouldExport_eq_holds (comparator : String) (v threshold : α) :
    shouldExport comparator v threshold
      = (comparatorHolds comparator v threshold == some true) := by
  by_cases hcmp : comparator ∈ [">", "<", "=", ">=", "<="]
  · rw [shouldExport_recognized comparator v threshold hcmp]
    cases shouldExport comparator v threshold <;> rfl
  · obtain ⟨h1, h2⟩ := shouldExport_unrecognized comparator v threshold hcmp
    rw [h1, h2]
    rfl

theorem exportRows_eq (stod : String → Option α) (c : Nat) (comparator : String)
    (threshold : α) (rows : List (List String)) (st : ExportState) :
    exportRows stod (c : Int) comparator threshold rows st
      = ⟨st.file ++ ((rows.filter (rowSelected stod c comparator threshold)).map
            writeLine).flatten,
          st.exportedRows
            + (rows.filter (rowSelected stod c comparator threshold)).length⟩ := by
  induction rows generalizing st with
  | nil => simp [exportRows]
  | cons row rest ih =>
    unfold exportRows
    simp only [ge_iff_le, Int.natCast_nonneg, true_and, Nat.cast_lt, Int.toNat_ofNat]
    by_cases h : c < row.length
    · rw [if_pos h, List.getD_eq_getElem _ _ h]
      cases hs : stod row[c] with
      | none =>
        have hsel : rowSelected stod c comparator threshold row = false := by
          simp [rowSelected, List.getElem?_eq_getElem h, hs]
        simp only [ih, List.filter_cons, hsel, Bool.false_eq_true, if_false]
      | some v =>
        have hsel : rowSelected stod c comparator threshold row
            = shouldExport comparator v threshold := by
          simp [rowSelected, List.getElem?_eq_getElem h, hs, shouldExport_eq_holds]
        by_cases hex : shouldExport comparator v threshold = true
        · rw [hex] at hsel
          simp only [hex, if_true, ih, List.filter_cons, hsel, List.map_cons,
            List.flatten_cons, List.length_cons, List.append_assoc, ExportState.mk.injEq,
            true_and]
          omega
        · rw [Bool.not_eq_true] at hex
          rw [hex] at hsel
          simp only [hex, Bool.false_eq_true, if_false, ih, List.filter_cons, hsel]
    · have hsel : rowSelected stod c comparator threshold row = false := by
        simp [rowSelected, List.getElem?_eq_none (Nat.le_of_not_lt h)]
      rw [if_neg h]
      simp only [ih, List.filter_cons, hsel, Bool.false_eq_true, if_false]

end ExportLemmas

section ExportTheorems

variable {α : Type} [Zero α] [One α] [OfNat α 1000] [Sub α] [Div α] [Neg α] [LT α] [LE α]
  [DecidableRel (fun a b : α => a < b)] [DecidableRel (fun a b : α => a ≤ b)]

theorem exportData_eq (stod : String → Option α) (t : Table) (c : Nat) (comparator : String)
    (threshold : α) :
    exportData stod t true (c : Int) comparator threshold
      = ExportOutcome.exported
          (String.mk (writeLine t.headers
            ++ ((t.data.filter (rowSelected stod c comparator threshold)).map
                writeLine).flatten))
          (t.data.filter (rowSelected stod c comparator threshold)).length := by
  unfold exportData
  simp only [Bool.not_true, Bool.false_eq_true, if_false, exportRows_eq, zero_add]

theorem rowSelected_iff (stod : String → Option α) (c : Nat) (comparator : String)
    (threshold : α) (row : List String) :
    rowSelected stod c comparator threshold row = true ↔
      ∃ h : c < row.length, ∃ v, stod (row.get ⟨c, h⟩) = some v ∧
        comparatorHolds comparator v threshold = some true := by
  unfold rowSelected
  by_cases h : c < row.length
  · simp only [List.get?_eq_getElem?, List.getElem?_eq_getElem h, Option.some_bind,
      List.get_eq_getElem, h, exists_true_left]
    cases hs : stod row[c] with
    | none => simp
    | some v => simp
  · simp [List.getElem?_eq_none (Nat.le_of_not_lt h), h]

theorem exportRows_unrecognized (stod : String → Option α) (columnIndex : Int)
    (comparator : String) (threshold : α)
    (hcmp : comparator ∉ [">", "<", "=", ">=", "<="]) (rows : List (List String))
    (st : ExportState) :
    exportRows stod columnIndex comparator threshold rows st = st := by
  induction rows with
  | nil => rfl
  | cons row rest ih =>
    unfold exportRows
    split
    · split
      · rw [(shouldExport_unrecognized comparator _ threshold hcmp).1]
        simpa using ih
      · exact ih
    · exact ih

end ExportTheorems

theorem intercalate_go_data (acc sep : String) (rest : List String) :
    (String.intercalate.go acc sep rest).data
      = acc.data ++ (rest.map (fun a => sep.data ++ a.data)).flatten := by
  induction rest generalizing acc with
  | nil => simp [String.intercalate.go]
  | cons a rest ih =>
    simp [String.intercalate.go, ih, String.data_append, List.append_assoc]

theorem writeFields_cons (a : String) (rest : List String) :
    writeFields (a :: rest) = a.data ++ (rest.map (fun x => ',' :: x.data)).flatten := by
  induction rest generalizing a with
  | nil =>
    rw [writeFields]
    simp
  | cons b rest ih =>
    rw [writeFields, ih]
    simp

/-- The record `exportData` writes is the fields of the row, as they are,
with a comma between neighbours. -/
theorem writeFields_eq_intercalate (row : List String) :
    String.mk (writeFields row) = ",".intercalate row := by
  apply String.ext
  cases row with
  | nil => rfl
  | cons a rest =>
    rw [String.intercalate, intercalate_go_data, writeFields_cons]
    rfl

/-- The text `exportData` writes for the header and a list of rows is the
records, each with its fields joined by commas and ended by a newline, one
after the other. -/
theorem export_file_eq_join (headers : List String) (selected : List (List String)) :
    String.mk (writeLine headers ++ ((selected.map writeLine).flatten))
      = String.join ((headers :: selected).map (fun row => ",".intercalate row ++ "\n")) := by
  have hline : ∀ row : List String, (",".intercalate row ++ "\n").data = writeLine row := by
    intro row
    rw [String.data_append, ← writeFields_eq_intercalate]
    rfl
  rw [String.join_eq]
  apply String.ext
  simp only [List.map_cons, List.map_map, List.flatten_cons]
  rw [hline]
  congr 1
  congr 1
  apply List.map_congr_left
  intro row _
  exact (hline row).symm

/-- C13: for a valid column index and a recognized comparator, in every
arithmetic of `double`, the file `exportData` writes is the header record
followed by the records of exactly the rows, in table order, whose cell at the
index is present, parses to a value `v` and satisfies the comparator against
the threshold; each record is the fields of its row, unchanged, with a comma
between neighbours and a newline at the end; the exported-row count is the
number of these rows.  `>`, `<`, `>=`, `<=` are the comparisons of the
arithmetic and `=` is `std::abs (v - t) < 0.001`, which on real numbers is
`|v - t| < 0.001`.  On doubles, with `=` and threshold 2 on a two-column table
with the values 1.9995, 2.0, 2.0011, the first two rows are written with both
fields and the third is not; the value 2.001 is within the tolerance on
doubles. -/
theorem exportData_writes_selected_rows :
    (∀ (α : Type) [Zero α] [One α] [OfNat α 1000] [Sub α] [Div α] [Neg α] [LT α] [LE α]
        [DecidableRel (fun a b : α => a < b)] [DecidableRel (fun a b : α => a ≤ b)]
        (stod : String → Option α) (t : Table) (c : Nat) (comparator : String)
        (threshold : α), c < t.headers.length →
        comparator ∈ [">", "<", "=", ">=", "<="] →
      exportData stod t true (c : Int) comparator threshold
        = ExportOutcome.exported
            (String.join
              ((t.headers :: t.data.filter (rowSelected stod c comparator threshold)).map
                (fun row => ",".intercalate row ++ "\n")))
            (t.data.filter (rowSelected stod c comparator threshold)).length ∧
      (∀ row, rowSelected stod c comparator threshold row = true ↔
        ∃ h : c < row.length, ∃ v, stod (row.get ⟨c, h⟩) = some v ∧
          comparatorHolds comparator v threshold = some true) ∧
      (∀ v : α,
        (comparatorHolds ">" v threshold = some true ↔ v > threshold) ∧
        (comparatorHolds "<" v threshold = some true ↔ v < threshold) ∧
        (comparatorHolds ">=" v threshold = some true ↔ v ≥ threshold) ∧
        (comparatorHolds "<=" v threshold = some true ↔ v ≤ threshold) ∧
        (comparatorHolds "=" v threshold = some true
          ↔ fabs (v - threshold) < 1 / 1000))) ∧
    (∀ v threshold : ℝ,
      (comparatorHolds ">" v threshold = some true ↔ v > threshold) ∧
      (comparatorHolds "<" v threshold = some true ↔ v < threshold) ∧
      (comparatorHolds ">=" v threshold = some true ↔ v ≥ threshold) ∧
      (comparatorHolds "<=" v threshold = some true ↔ v ≤ threshold) ∧
      (comparatorHolds "=" v threshold = some true ↔ |v - threshold| < 0.001)) ∧
    exportData stodDouble nearTwoWide true ((1 : Nat) : Int) "=" 2
      = ExportOutcome.exported "id,v\na,1.9995\nb,2.0\n" 2 ∧
    exportData stodDouble boundaryTable true ((0 : Nat) : Int) "=" 2
      = ExportOutcome.exported "v\n2.001\n" 1 := by
  refine ⟨?_, fun v threshold => ?_, by decide, by decide⟩
  · intro α _ _ _ _ _ _ _ _ _ _ stod t c comparator threshold _ _
    refine ⟨?_, rowSelected_iff stod c comparator threshold, fun v => ?_⟩
    · rw [exportData_eq, export_file_eq_join]
    · refine ⟨?_, ?_, ?_, ?_, ?_⟩ <;> simp [comparatorHolds]
  · refine ⟨?_, ?_, ?_, ?_, ?_⟩ <;> simp [comparatorHolds, fabs_eq_abs]
    norm_num

/-- Witness for C13: on doubles, the two-column table with the values 1.9995,
2.0, 2.0011 at index 1, comparator `=` and threshold 2; the rows selected are
the first two and the file holds both fields of each. -/
theorem exportData_writes_selected_rows_witness :
    1 < nearTwoWide.headers.length ∧ "=" ∈ [">", "<", "=", ">=", "<="] ∧
    nearTwoWide.data.filter (rowSelected stodDouble 1 "=" 2)
      = [["a", "1.9995"], ["b", "2.0"]] ∧
    exportData stodDouble nearTwoWide true ((1 : Nat) : Int) "=" 2
      = ExportOutcome.exported
          (String.join
            ((nearTwoWide.headers
                :: nearTwoWide.data.filter (rowSelected stodDouble 1 "=" 2)).map
              (fun row => ",".intercalate row ++ "\n")))
          (nearTwoWide.data.filter (rowSelected stodDouble 1 "=" 2)).length :=
  ⟨by decide, by decide, by decide,
    (exportData_writes_selected_rows.1 F64 stodDouble nearTwoWide 1 "=" 2
      (by decide) (by decide)).1⟩

theorem stodDecimal_digit_values :
    (stodDecimal "1" : Option ℝ) = some 1 ∧ (stodDecimal "2" : Option ℝ) = some 2 ∧
    (stodDecimal "3" : Option ℝ) = some 3 ∧ (stodDecimal "5" : Option ℝ) = some 5 := by
  refine ⟨?_, ?_, ?_, ?_⟩
  · rw [stodDecimal_of_parse (show parseDecimal "1".toList = some ⟨false, 1, 0⟩ by decide)]
    simp [Decimal.toValue]
  · rw [stodDecimal_of_parse (show parseDecimal "2".toList = some ⟨false, 2, 0⟩ by decide)]
    simp [Decimal.toValue]
  · rw [stodDecimal_of_parse (show parseDecimal "3".toList = some ⟨false, 3, 0⟩ by decide)]
    simp [Decimal.toValue]
  · rw [stodDecimal_of_parse (show parseDecimal "5".toList = some ⟨false, 5, 0⟩ by decide)]
    simp [Decimal.toValue]

/-- C14 (the code at the failing input): the file `A` / `1,5` loads with one
header and a data row of two cells; index 1 is outside the header range, yet
`exportData` with `> 0` writes the row and counts 1; with index -1 it writes the
header line and counts 0.  Either way the outcome is an export, where
`analyzeColumn` at the same indices answers invalid column. -/
theorem exportData_index_outside_headers :
    (loadData longRowText).headers = ["A"] ∧ (loadData longRowText).data = [["1", "5"]] ∧
    exportData (stodDecimal : String → Option ℝ) (loadData longRowText) true 1 ">" 0
      = ExportOutcome.exported "A\n1,5\n" 1 ∧
    exportData (stodDecimal : String → Option ℝ) (loadData longRowText) true (-1) ">" 0
      = ExportOutcome.exported "A\n" 0 ∧
    analyzeColumn (stodDecimal : String → Option ℝ) Real.sqrt (loadData longRowText) 1
      = AnalysisResult.invalidColumn ∧
    analyzeColumn (stodDecimal : String → Option ℝ) Real.sqrt (loadData longRowText) (-1)
      = AnalysisResult.invalidColumn := by
  have hh : (loadData longRowText).headers = ["A"] := by decide
  have hd : (loadData longRowText).data = [["1", "5"]] := by decide
  have hsel : rowSelected (stodDecimal : String → Option ℝ) 1 ">" 0 ["1", "5"] = true := by
    simp only [rowSelected, List.get?_cons_succ, List.get?_cons_zero, Option.some_bind,
      stodDecimal_digit_values.2.2.2]
    simp [comparatorHolds, fabs_eq_abs]
  refine ⟨hh, hd, ?_, ?_, ?_, ?_⟩
  · have := exportData_eq (stodDecimal : String → Option ℝ) (loadData longRowText) 1 ">" 0
    rw [hh, hd] at this
    simp only [List.filter_cons, List.filter_nil, hsel, if_true, List.map_cons, List.map_nil,
      List.length_cons, List.length_nil] at this
    exact this
  · unfold exportData
    rw [hh, hd]
    simp [exportRows]
    rfl
  · unfold analyzeColumn analyzeColumnWith
    rw [hh]
    simp
  · unfold analyzeColumn analyzeColumnWith
    simp

/-- C15 (as stated, refuted): on the table of rows 1, 2, 3 the comparator `!=`
gives the very outcome of the successful export with `>` and threshold 5 that
matches no row: the header line written and 0 rows exported. -/
theorem exportData_unrecognized_counterexample :
    "!=" ∉ [">", "<", "=", ">=", "<="] ∧
    exportData (stodDecimal : String → Option ℝ) tableA123 true ((0 : Nat) : Int) "!=" 2
      = ExportOutcome.exported "A\n" 0 ∧
    exportData (stodDecimal : String → Option ℝ) tableA123 true ((0 : Nat) : Int) ">" 5
      = ExportOutcome.exported "A\n" 0 := by
  have hcmp : "!=" ∉ [">", "<", "=", ">=", "<="] := by decide
  refine ⟨hcmp, ?_, ?_⟩
  · unfold exportData
    simp only [Bool.not_true, Bool.false_eq_true, if_false,
      exportRows_unrecognized _ _ _ _ hcmp]
    rfl
  · obtain ⟨h1, h2, h3, -⟩ := stodDecimal_digit_values
    have s1 : rowSelected (stodDecimal : String → Option ℝ) 0 ">" 5 ["1"] = false := by
      simp only [rowSelected, List.get?_cons_zero, Option.some_bind, h1]
      norm_num [comparatorHolds]
    have s2 : rowSelected (stodDecimal : String → Option ℝ) 0 ">" 5 ["2"] = false := by
      simp only [rowSelected, List.get?_cons_zero, Option.some_bind, h2]
      norm_num [comparatorHolds]
    have s3 : rowSelected (stodDecimal : String → Option ℝ) 0 ">" 5 ["3"] = false := by
      simp only [rowSelected, List.get?_cons_zero, Option.some_bind, h3]
      norm_num [comparatorHolds]
    rw [exportData_eq]
    simp only [tableA123, List.filter_cons, List.filter_nil, s1, s2, s3, Bool.false_eq_true,
      if_false, List.map_nil, List.length_nil]
    rfl

/-- C15 (amended): at a valid column index, for a comparator string that is
none of `>`, `<`, `=`, `>=`, `<=`, `exportData` writes the header record and no
data row and reports 0 exported rows, for every threshold and in every
arithmetic of `double`; this is the very outcome of an export with a
recognized comparator under which no row is selected. -/
theorem exportData_unrecognized_comparator {α : Type} [Zero α] [One α] [OfNat α 1000]
    [Sub α] [Div α] [Neg α] [LT α] [LE α] [DecidableRel (fun a b : α => a < b)]
    [DecidableRel (fun a b : α => a ≤ b)]
    (stod : String → Option α) (t : Table) (c : Nat) (comparator : String)
    (threshold : α) (_hc : c < t.headers.length)
    (hcmp : comparator ∉ [">", "<", "=", ">=", "<="]) :
    exportData stod t true (c : Int) comparator threshold
      = ExportOutcome.exported (",".intercalate t.headers ++ "\n") 0 ∧
    ∀ (recognized : String) (threshold2 : α),
      recognized ∈ [">", "<", "=", ">=", "<="] →
      (∀ row ∈ t.data, rowSelected stod c recognized threshold2 row = false) →
      exportData stod t true (c : Int) recognized threshold2
        = exportData stod t true (c : Int) comparator threshold := by
  have hfile : ∀ rows : List (List String), rows = [] →
      String.mk (writeLine t.headers ++ (rows.map writeLine).flatten)
        = ",".intercalate t.headers ++ "\n" := by
    intro rows hrows
    rw [export_file_eq_join, hrows]
    apply String.ext
    simp [String.join_eq, String.data_append]
  have hleft : exportData stod t true (c : Int) comparator threshold
      = ExportOutcome.exported (",".intercalate t.headers ++ "\n") 0 := by
    have h0 := hfile [] rfl
    simp only [List.map_nil, List.flatten_nil, List.append_nil] at h0
    unfold exportData
    simp only [Bool.not_true, Bool.false_eq_true, if_false,
      exportRows_unrecognized stod (c : Int) comparator threshold hcmp, h0]
  refine ⟨hleft, ?_⟩
  intro recognized threshold2 _ hnone
  have hfilter : t.data.filter (rowSelected stod c recognized threshold2) = [] := by
    rw [List.filter_eq_nil_iff]
    intro row hrow
    rw [hnone row hrow]
    simp
  rw [hleft, exportData_eq, hfilter, hfile [] rfl]
  rfl

/-- Witness for C15 (amended): the comparator `!=` on the table of rows 1, 2,
3, on doubles. -/
theorem exportData_unrecognized_comparator_witness :
    0 < tableA123.headers.length ∧ "!=" ∉ [">", "<", "=", ">=", "<="] ∧
    exportData stodDouble tableA123 true ((0 : Nat) : Int) "!=" 2
      = ExportOutcome.exported "A\n" 0 :=
  ⟨by decide, by decide,
    (exportData_unrecognized_comparator stodDouble tableA123 0 "!=" 2
      (by decide) (by decide)).1⟩

/-! ## Frequency distribution: proofs -/

theorem frequencyRows_eq (c : Nat) (rows : List (List String))
    (frequency : List (String × Nat)) (totalCount : Nat) :
    frequencyRows (c : Int) rows (frequency, totalCount)
      = ((presentCells c rows).foldl (fun m key => frequencyIncr key m) frequency,
          totalCount + (presentCells c rows).length) := by
  induction rows generalizing frequency totalCount with
  | nil => simp [frequencyRows, presentCells]
  | cons row rest ih =>
    unfold frequencyRows
    simp only [Nat.cast_lt, Int.toNat_ofNat]
    by_cases h : c < row.length
    · rw [if_pos h, ih, List.getD_eq_getElem _ _ h]
      simp only [presentCells, List.filterMap_cons, List.get?_eq_getElem?,
        List.getElem?_eq_getElem h, List.foldl_cons, List.length_cons]
      congr 1
      omega
    · rw [if_neg h, ih]
      simp only [presentCells, List.filterMap_cons, List.get?_eq_getElem?,
        List.getElem?_eq_none (Nat.le_of_not_lt h)]

theorem presentCells_length (c : Nat) (rows : List (List String)) :
    (presentCells c rows).length = (rows.filter (fun row => decide (c < row.length))).length := by
  induction rows with
  | nil => rfl
  | cons row rest ih =>
    by_cases h : c < row.length
    · simp [presentCells, List.filterMap_cons, List.getElem?_eq_getElem h, List.filter_cons, h]
        at ih ⊢
      exact ih
    · simp [presentCells, List.filterMap_cons, List.getElem?_eq_none (Nat.le_of_not_lt h),
        List.filter_cons, h] at ih ⊢
      exact ih

theorem mem_keys_frequencyIncr (key k : String) (m : List (String × Nat)) :
    k ∈ (frequencyIncr key m).map Prod.fst ↔ k = key ∨ k ∈ m.map Prod.fst := by
  induction m with
  | nil => simp [frequencyIncr]
  | cons e rest ih =>
    obtain ⟨k0, n0⟩ := e
    unfold frequencyIncr
    by_cases h1 : key = k0
    · rw [if_pos h1]
      subst h1
      simp only [List.map_cons, List.mem_cons]
      tauto
    · rw [if_neg h1]
      by_cases h2 : key < k0
      · rw [if_pos h2]
        simp only [List.map_cons, List.mem_cons]
      · rw [if_neg h2]
        simp only [List.map_cons, List.mem_cons, ih]
        tauto

theorem sum_counts_frequencyIncr (key : String) (m : List (String × Nat)) :
    ((frequencyIncr key m).map Prod.snd).sum = (m.map Prod.snd).sum + 1 := by
  induction m with
  | nil => simp [frequencyIncr]
  | cons e rest ih =>
    obtain ⟨k0, n0⟩ := e
    unfold frequencyIncr
    by_cases h1 : key = k0
    · rw [if_pos h1]
      simp only [List.map_cons, List.sum_cons]
      omega
    · rw [if_neg h1]
      by_cases h2 : key < k0
      · rw [if_pos h2]
        simp only [List.map_cons, List.sum_cons]
        omega
      · rw [if_neg h2]
        simp only [List.map_cons, List.sum_cons, ih]
        omega

theorem frequencyOf_frequencyIncr (key k : String) (m : List (String × Nat)) :
    frequencyOf k (frequencyIncr key m) = frequencyOf k m + (if k = key then 1 else 0) := by
  induction m with
  | nil =>
    by_cases hk : k = key
    · simp [frequencyOf, frequencyIncr, hk]
    · have hk2 : ¬ key = k := fun h => hk h.symm
      simp [frequencyOf, frequencyIncr, hk, hk2]
  | cons e rest ih =>
    obtain ⟨k0, n0⟩ := e
    unfold frequencyIncr
    by_cases h1 : key = k0
    · rw [if_pos h1]
      subst h1
      by_cases hk : k = key
      · subst hk
        simp [frequencyOf, List.filter_cons]
        omega
      · have hk2 : ¬ key = k := fun h => hk h.symm
        simp [frequencyOf, List.filter_cons, hk, hk2]
    · rw [if_neg h1]
      by_cases h2 : key < k0
      · rw [if_pos h2]
        by_cases hk : k = key
        · subst hk
          simp [frequencyOf, List.filter_cons]
          omega
        · have hk2 : ¬ key = k := fun h => hk h.symm
          simp [frequencyOf, List.filter_cons, hk, hk2]
      · rw [if_neg h2]
        unfold frequencyOf at ih ⊢
        by_cases hk0 : k0 = k
        · simp only [List.filter_cons, hk0, decide_True, if_true, List.map_cons,
            List.sum_cons, ih]
          omega
        · simp only [List.filter_cons, hk0, decide_False, Bool.false_eq_true, if_false, ih]

theorem keys_sorted_frequencyIncr (key : String) (m : List (String × Nat))
    (hs : (m.map Prod.fst).Sorted (fun a b => a < b)) :
    ((frequencyIncr key m).map Prod.fst).Sorted (fun a b => a < b) := by
  induction m with
  | nil => simp [frequencyIncr]
  | cons e rest ih =>
    obtain ⟨k0, n0⟩ := e
    have hrest : (rest.map Prod.fst).Sorted (fun a b => a < b) := (List.sorted_cons.mp hs).2
    have hk0 : ∀ b ∈ rest.map Prod.fst, k0 < b := (List.sorted_cons.mp hs).1
    unfold frequencyIncr
    by_cases h1 : key = k0
    · rw [if_pos h1]
      exact hs
    · rw [if_neg h1]
      by_cases h2 : key < k0
      · rw [if_pos h2]
        refine List.sorted_cons.mpr ⟨?_, hs⟩
        intro b hb
        rcases List.mem_cons.mp hb with hb | hb
        · rw [hb]
          exact h2
        · exact lt_trans h2 (hk0 b hb)
      · rw [if_neg h2]
        refine List.sorted_cons.mpr ⟨?_, ih hrest⟩
        intro b hb
        rcases (mem_keys_frequencyIncr key b rest).mp hb with hb | hb
        · rw [hb]
          exact lt_of_le_of_ne (not_lt.mp h2) (fun h => h1 h.symm)
        · exact hk0 b hb

/-- The map `frequency` after counting the cells, from the empty map. -/
theorem frequencyRows_start (c : Nat) (rows : List (List String)) :
    frequencyRows (c : Int) rows ([], 0)
      = ((presentCells c rows).foldl (fun m key => frequencyIncr key m) [],
          (presentCells c rows).length) := by
  rw [frequencyRows_eq, Nat.zero_add]

theorem foldl_frequencyIncr_keys_sorted (cells : List String) (m : List (String × Nat))
    (hs : (m.map Prod.fst).Sorted (fun a b => a < b)) :
    ((cells.foldl (fun m key => frequencyIncr key m) m).map Prod.fst).Sorted
      (fun a b => a < b) := by
  induction cells generalizing m with
  | nil => exact hs
  | cons key rest ih => exact ih _ (keys_sorted_frequencyIncr key m hs)

theorem foldl_frequencyIncr_mem_keys (cells : List String) (m : List (String × Nat))
    (k : String) :
    k ∈ (cells.foldl (fun m key => frequencyIncr key m) m).map Prod.fst ↔
      k ∈ cells ∨ k ∈ m.map Prod.fst := by
  induction cells generalizing m with
  | nil => simp
  | cons key rest ih =>
    rw [List.foldl_cons, ih, mem_keys_frequencyIncr, List.mem_cons]
    tauto

theorem foldl_frequencyIncr_sum (cells : List String) (m : List (String × Nat)) :
    ((cells.foldl (fun m key => frequencyIncr key m) m).map Prod.snd).sum
      = (m.map Prod.snd).sum + cells.length := by
  induction cells generalizing m with
  | nil => simp
  | cons key rest ih =>
    rw [List.foldl_cons, ih, sum_counts_frequencyIncr, List.length_cons]
    omega

theorem foldl_frequencyIncr_frequencyOf (cells : List String) (m : List (String × Nat))
    (k : String) :
    frequencyOf k (cells.foldl (fun m key => frequencyIncr key m) m)
      = frequencyOf k m + cells.count k := by
  induction cells generalizing m with
  | nil => simp
  | cons key rest ih =>
    rw [List.foldl_cons, ih, frequencyOf_frequencyIncr, List.count_cons]
    by_cases hk : k = key
    · subst hk
      simp
      omega
    · have hk2 : ¬ key = k := fun h => hk h.symm
      simp [hk, hk2]

theorem frequencyOf_of_mem (m : List (String × Nat)) (hn : (m.map Prod.fst).Nodup)
    (e : String × Nat) (he : e ∈ m) : frequencyOf e.1 m = e.2 := by
  induction m with
  | nil => simp at he
  | cons e0 rest ih =>
    rw [List.map_cons, List.nodup_cons] at hn
    unfold frequencyOf at ih ⊢
    rcases List.mem_cons.mp he with h | h
    · subst h
      have hnot : rest.filter (fun entry => decide (entry.1 = e.1)) = [] := by
        rw [List.filter_eq_nil_iff]
        intro x hx hxe
        exact hn.1 (List.mem_map.mpr ⟨x, hx, by simpa using hxe⟩)
      simp [List.filter_cons, hnot]
    · have hne : ¬ e0.1 = e.1 := by
        intro heq
        exact hn.1 (List.mem_map.mpr ⟨e, h, heq.symm⟩)
      simp only [List.filter_cons, hne, decide_False, Bool.false_eq_true, if_false]
      exact ih hn.2 h

theorem keys_nodup_of_sorted (m : List (String × Nat))
    (hs : (m.map Prod.fst).Sorted (fun a b => a < b)) : (m.map Prod.fst).Nodup :=
  hs.imp (fun h => ne_of_lt h)

theorem sortByCount_perm (m : List (String × Nat)) : (sortByCount m).Perm m :=
  List.perm_insertionSort _ m

theorem sortByCount_counts_sorted (m : List (String × Nat)) :
    (sortByCount m).Sorted (fun a b => a.2 ≥ b.2) := by
  haveI : IsTotal (String × Nat) (fun a b => a.2 ≥ b.2) := ⟨fun a b => le_total b.2 a.2⟩
  haveI : IsTrans (String × Nat) (fun a b => a.2 ≥ b.2) :=
    ⟨fun a b c hab hbc => le_trans hbc hab⟩
  exact List.sorted_insertionSort _ m

/-- The categorical branch of `analyzeColumn` is taken at a valid index that
is not numeric, for every reading of `double` and every sort of the frequency
entries. -/
theorem analyzeColumnWith_categorical {α : Type} [Zero α] [Add α] [Sub α] [Mul α] [Div α]
    [NatCast α] [OfNat α 2] [OfNat α 100] [LE α] [DecidableRel (fun a b : α => a ≤ b)]
    (sortFreq : List (String × Nat) → List (String × Nat))
    (stod : String → Option α) (sqrt : α → α) (t : Table)
    (c : Nat) (hc : c < t.headers.length) (hnum : isNumericColumn stod t (c : Int) = false) :
    analyzeColumnWith sortFreq stod sqrt t (c : Int)
      = AnalysisResult.categorical (presentCells c t.data).length
          ((presentCells c t.data).foldl (fun m key => frequencyIncr key m) []).length
          ((sortFreq ((presentCells c t.data).foldl
              (fun m key => frequencyIncr key m) [])).map
            (fun pair => (pair.1, pair.2,
              (pair.2 : α) / ((presentCells c t.data).length : α) * 100))) := by
  unfold analyzeColumnWith
  rw [if_neg (valid_index_guard t c hc), hnum, frequencyRows_start]
  simp only [Bool.false_eq_true, if_false]

section Categorical

variable {α : Type} [LinearOrderedField α]

/-- The categorical branch is taken at a valid index that is not numeric. -/
theorem analyzeColumn_categorical (stod : String → Option α) (sqrt : α → α) (t : Table)
    (c : Nat) (hc : c < t.headers.length) (hnum : isNumericColumn stod t (c : Int) = false) :
    analyzeColumn stod sqrt t (c : Int)
      = AnalysisResult.categorical (presentCells c t.data).length
          ((presentCells c t.data).foldl (fun m key => frequencyIncr key m) []).length
          ((sortByCount ((presentCells c t.data).foldl
              (fun m key => frequencyIncr key m) [])).map
            (fun pair => (pair.1, pair.2,
              (pair.2 : α) / ((presentCells c t.data).length : α) * 100))) :=
  analyzeColumnWith_categorical sortByCount stod sqrt t c hc hnum

end Categorical

theorem presentCells_ne_nil_of_not_numeric {α : Type} (stod : String → Option α) (t : Table) (c : Nat)
    (hc : c < t.headers.length) (hnum : isNumericColumn stod t (c : Int) = false) :
    0 < (presentCells c t.data).length := by
  by_contra hzero
  have hnil : presentCells c t.data = [] := List.length_eq_zero.mp (by omega)
  have : isNumericColumn stod t (c : Int) = true := by
    rw [isNumericColumn_valid stod t c hc, isNumericRows_iff]
    intro row hrow h
    have hmem : row.get ⟨c, h⟩ ∈ presentCells c t.data := by
      unfold presentCells
      rw [List.mem_filterMap]
      exact ⟨row, hrow, by simp [List.getElem?_eq_getElem h]⟩
    rw [hnil] at hmem
    simp at hmem
  rw [hnum] at this
  exact absurd this (by simp)

/-- C17: at a valid index that is not numeric the frequency distribution of
`analyzeColumn` has one entry per distinct cell string present at the index,
each with the number of its occurrences; the unique-value count is the number
of distinct present cell strings; the counts sum to the total-entries value,
which is the number of rows that have a cell at the index. -/
theorem analyzeColumn_frequency_counts {α : Type} [LinearOrderedField α]
    (stod : String → Option α) (sqrt : α → α) (t : Table) (c : Nat)
    (hc : c < t.headers.length) (hnum : isNumericColumn stod t (c : Int) = false) :
    ∃ (totalCount uniqueValues : Nat) (distribution : List (String × Nat × α)),
      analyzeColumn stod sqrt t (c : Int)
        = AnalysisResult.categorical totalCount uniqueValues distribution ∧
      (distribution.map (fun e => e.1)).Nodup ∧
      (∀ s, s ∈ distribution.map (fun e => e.1) ↔ s ∈ presentCells c t.data) ∧
      (∀ e ∈ distribution, e.2.1 = (presentCells c t.data).count e.1) ∧
      uniqueValues = distribution.length ∧
      uniqueValues = (presentCells c t.data).dedup.length ∧
      (distribution.map (fun e => e.2.1)).sum = totalCount ∧
      totalCount = (t.data.filter (fun row => decide (c < row.length))).length := by
  have hsorted := foldl_frequencyIncr_keys_sorted (presentCells c t.data) [] (by simp)
  have hnodup := keys_nodup_of_sorted _ hsorted
  have hperm := sortByCount_perm
    ((presentCells c t.data).foldl (fun m key => frequencyIncr key m) [])
  have hkeys : ((sortByCount ((presentCells c t.data).foldl
        (fun m key => frequencyIncr key m) [])).map Prod.fst).Perm
      (((presentCells c t.data).foldl (fun m key => frequencyIncr key m) []).map Prod.fst) :=
    hperm.map _
  refine ⟨_, _, _, analyzeColumn_categorical stod sqrt t c hc hnum, ?_, ?_, ?_, ?_, ?_, ?_, ?_⟩
  · rw [List.map_map]
    exact (hkeys.nodup_iff).2 hnodup
  · intro s
    rw [List.map_map]
    rw [show ((fun e : String × Nat × α => e.1) ∘
        fun pair : String × Nat => (pair.1, pair.2,
          (pair.2 : α) / ((presentCells c t.data).length : α) * 100)) = Prod.fst from rfl]
    rw [hkeys.mem_iff, foldl_frequencyIncr_mem_keys]
    simp
  · intro e he
    obtain ⟨pair, hpair, rfl⟩ := List.mem_map.mp he
    have hmem := hperm.mem_iff.1 hpair
    have h1 := frequencyOf_of_mem _ hnodup pair hmem
    rw [foldl_frequencyIncr_frequencyOf] at h1
    simpa [frequencyOf] using h1.symm
  · rw [List.length_map, hperm.length_eq]
  · have hk : (((presentCells c t.data).foldl (fun m key => frequencyIncr key m) []).map
        Prod.fst).Perm (presentCells c t.data).dedup := by
      rw [List.perm_ext_iff_of_nodup hnodup (List.nodup_dedup _)]
      intro s
      rw [foldl_frequencyIncr_mem_keys, List.mem_dedup]
      simp
    rw [← hk.length_eq, List.length_map]
  · rw [List.map_map]
    rw [show ((fun e : String × Nat × α => e.2.1) ∘
        fun pair : String × Nat => (pair.1, pair.2,
          (pair.2 : α) / ((presentCells c t.data).length : α) * 100)) = Prod.snd from rfl]
    rw [(hperm.map Prod.snd).sum_eq, foldl_frequencyIncr_sum]
    simp
  · exact presentCells_length c t.data

/-- Witness for C17 on the color table: total 3, two distinct values. -/
theorem analyzeColumn_frequency_counts_witness :
    0 < colorTable.headers.length ∧
    isNumericColumn (stodDecimal : String → Option ℚ) colorTable ((0 : Nat) : Int) = false ∧
    (presentCells 0 colorTable.data).dedup.length = 2 ∧
    ∃ (totalCount uniqueValues : Nat) (distribution : List (String × Nat × ℚ)),
      analyzeColumn stodDecimal id colorTable ((0 : Nat) : Int)
        = AnalysisResult.categorical totalCount uniqueValues distribution ∧
      (distribution.map (fun e => e.1)).Nodup ∧
      (∀ s, s ∈ distribution.map (fun e => e.1) ↔ s ∈ presentCells 0 colorTable.data) ∧
      (∀ e ∈ distribution, e.2.1 = (presentCells 0 colorTable.data).count e.1) ∧
      uniqueValues = distribution.length ∧
      uniqueValues = (presentCells 0 colorTable.data).dedup.length ∧
      (distribution.map (fun e => e.2.1)).sum = totalCount ∧
      totalCount = (colorTable.data.filter (fun row => decide (0 < row.length))).length :=
  ⟨by decide, by decide, by decide,
    analyzeColumn_frequency_counts stodDecimal id colorTable 0 (by decide) (by decide)⟩

theorem sum_map_percentage {α : Type} [LinearOrderedField α] (l : List (String × Nat))
    (total : α) :
    (l.map (fun pair => (pair.2 : α) / total * 100)).sum
      = (((l.map Prod.snd).sum : Nat) : α) / total * 100 := by
  induction l with
  | nil => simp
  | cons e rest ih =>
    simp only [List.map_cons, List.sum_cons, ih, Nat.cast_add]
    ring

theorem colorTable_frequency :
    (presentCells 0 colorTable.data).foldl (fun m key => frequencyIncr key m) []
      = [("blue", 1), ("red", 2)] := by
  have hlt : ("blue" : String) < "red" := String.lt_iff_toList_lt.mpr (by decide)
  have hnlt : ¬ ("red" : String) < "blue" := not_lt_of_gt hlt
  have hcells : presentCells 0 colorTable.data = ["red", "blue", "red"] := by decide
  rw [hcells]
  simp [frequencyIncr, hlt, hnlt]

theorem analyzeColumn_colorTable :
    analyzeColumn (stodDecimal : String → Option ℝ) Real.sqrt colorTable ((0 : Nat) : Int)
      = AnalysisResult.categorical 3 2 [("red", 2, 200 / 3), ("blue", 1, 100 / 3)] := by
  rw [analyzeColumn_categorical _ _ _ 0 (by decide) (by decide), colorTable_frequency]
  have hsort : sortByCount [("blue", 1), ("red", 2)] = [("red", 2), ("blue", 1)] := by decide
  have hlen : (presentCells 0 colorTable.data).length = 3 := by decide
  rw [hsort, hlen]
  norm_num

/-- C18: at a valid index that is not numeric the frequency distribution of
`analyzeColumn` is in non-increasing order of count: an entry's count is at
least the count of every entry after it.  Header `Color` with rows red, blue,
red gives 3 entries in total, 2 unique values, and lists red (2, 200/3 percent,
shown as 66.7) before blue (1, 100/3 percent, shown as 33.3). -/
theorem analyzeColumn_distribution_sorted :
    (∀ (stod : String → Option ℝ) (sqrt : ℝ → ℝ) (t : Table) (c : Nat),
      c < t.headers.length → isNumericColumn stod t (c : Int) = false →
      ∃ (totalCount uniqueValues : Nat) (distribution : List (String × Nat × ℝ)),
        analyzeColumn stod sqrt t (c : Int)
          = AnalysisResult.categorical totalCount uniqueValues distribution ∧
        distribution.Pairwise (fun a b => a.2.1 ≥ b.2.1)) ∧
    analyzeColumn (stodDecimal : String → Option ℝ) Real.sqrt colorTable ((0 : Nat) : Int)
      = AnalysisResult.categorical 3 2 [("red", 2, 200 / 3), ("blue", 1, 100 / 3)] ∧
    |(200 / 3 : ℝ) - 66.7| < 0.05 ∧ |(100 / 3 : ℝ) - 33.3| < 0.05 := by
  refine ⟨fun stod sqrt t c hc hnum => ?_, analyzeColumn_colorTable, ?_, ?_⟩
  · refine ⟨_, _, _, analyzeColumn_categorical stod sqrt t c hc hnum, ?_⟩
    rw [List.pairwise_map]
    exact sortByCount_counts_sorted _
  · rw [abs_lt]
    constructor <;> norm_num
  · rw [abs_lt]
    constructor <;> norm_num

/-- Witness for C18 on the color table. -/
theorem analyzeColumn_distribution_sorted_witness :
    0 < colorTable.headers.length ∧
    isNumericColumn (stodDecimal : String → Option ℝ) colorTable ((0 : Nat) : Int) = false ∧
    ∃ (totalCount uniqueValues : Nat) (distribution : List (String × Nat × ℝ)),
      analyzeColumn stodDecimal Real.sqrt colorTable ((0 : Nat) : Int)
        = AnalysisResult.categorical totalCount uniqueValues distribution ∧
      distribution.Pairwise (fun a b => a.2.1 ≥ b.2.1) :=
  ⟨by decide, by decide,
    analyzeColumn_distribution_sorted.1 stodDecimal Real.sqrt colorTable 0
      (by decide) (by decide)⟩

/-- C20: at a valid index that is not numeric the total-entries divisor is
positive, every percentage is 100 * count / totalEntries, and the percentages
of all entries sum to exactly 100. -/
theorem analyzeColumn_percentages {α : Type} [LinearOrderedField α]
    (stod : String → Option α) (sqrt : α → α) (t : Table) (c : Nat)
    (hc : c < t.headers.length) (hnum : isNumericColumn stod t (c : Int) = false) :
    ∃ (totalCount uniqueValues : Nat) (distribution : List (String × Nat × α)),
      analyzeColumn stod sqrt t (c : Int)
        = AnalysisResult.categorical totalCount uniqueValues distribution ∧
      0 < totalCount ∧
      (∀ e ∈ distribution, e.2.2 = 100 * (e.2.1 : α) / (totalCount : α)) ∧
      (distribution.map (fun e => e.2.2)).sum = 100 := by
  have hpos := presentCells_ne_nil_of_not_numeric stod t c hc hnum
  have hne : ((presentCells c t.data).length : α) ≠ 0 :=
    Nat.cast_ne_zero.mpr (Nat.pos_iff_ne_zero.mp hpos)
  refine ⟨_, _, _, analyzeColumn_categorical stod sqrt t c hc hnum, hpos, ?_, ?_⟩
  · intro e he
    obtain ⟨pair, -, rfl⟩ := List.mem_map.mp he
    simp only
    ring
  · rw [List.map_map]
    rw [show ((fun e : String × Nat × α => e.2.2) ∘
        fun pair : String × Nat => (pair.1, pair.2,
          (pair.2 : α) / ((presentCells c t.data).length : α) * 100))
        = fun pair => (pair.2 : α) / ((presentCells c t.data).length : α) * 100 from rfl]
    rw [sum_map_percentage, ((sortByCount_perm _).map Prod.snd).sum_eq,
      foldl_frequencyIncr_sum]
    simp only [List.map_nil, List.sum_nil, Nat.zero_add]
    rw [div_self hne, one_mul]

/-- Witness for C20 on the color table. -/
theorem analyzeColumn_percentages_witness :
    0 < colorTable.headers.length ∧
    isNumericColumn (stodDecimal : String → Option ℚ) colorTable ((0 : Nat) : Int) = false ∧
    ∃ (totalCount uniqueValues : Nat) (distribution : List (String × Nat × ℚ)),
      analyzeColumn stodDecimal id colorTable ((0 : Nat) : Int)
        = AnalysisResult.categorical totalCount uniqueValues distribution ∧
      0 < totalCount ∧
      (∀ e ∈ distribution, e.2.2 = 100 * (e.2.1 : ℚ) / (totalCount : ℚ)) ∧
      (distribution.map (fun e => e.2.2)).sum = 100 :=
  ⟨by decide, by decide,
    analyzeColumn_percentages stodDecimal id colorTable 0 (by decide) (by decide)⟩

theorem frequency_entries_eq (cells : List String) :
    cells.foldl (fun m key => frequencyIncr key m) []
      = ((cells.foldl (fun m key => frequencyIncr key m) []).map Prod.fst).map
          (fun k => (k, cells.count k)) := by
  have hsorted := foldl_frequencyIncr_keys_sorted cells [] (by simp)
  have hnodup := keys_nodup_of_sorted _ hsorted
  rw [List.map_map]
  conv_lhs => rw [← List.map_id (cells.foldl (fun m key => frequencyIncr key m) [])]
  apply List.map_congr_left
  intro e he
  have h1 := frequencyOf_of_mem _ hnodup e he
  rw [foldl_frequencyIncr_frequencyOf] at h1
  have h2 : e.2 = cells.count e.1 := by simpa [frequencyOf] using h1.symm
  simp only [id, Function.comp]
  rw [← h2]

theorem frequency_perm_invariant (cells1 cells2 : List String) (h : cells1.Perm cells2) :
    cells1.foldl (fun m key => frequencyIncr key m) []
      = cells2.foldl (fun m key => frequencyIncr key m) [] := by
  have hs1 := foldl_frequencyIncr_keys_sorted cells1 [] (by simp)
  have hs2 := foldl_frequencyIncr_keys_sorted cells2 [] (by simp)
  have hkeys : (cells1.foldl (fun m key => frequencyIncr key m) []).map Prod.fst
      = (cells2.foldl (fun m key => frequencyIncr key m) []).map Prod.fst := by
    apply List.eq_of_perm_of_sorted _ hs1 hs2
    rw [List.perm_ext_iff_of_nodup (keys_nodup_of_sorted _ hs1) (keys_nodup_of_sorted _ hs2)]
    intro k
    rw [foldl_frequencyIncr_mem_keys, foldl_frequencyIncr_mem_keys, h.mem_iff]
  rw [frequency_entries_eq cells1, frequency_entries_eq cells2, hkeys]
  apply List.map_congr_left
  intro k _
  rw [h.count_eq]

theorem isNumericColumn_perm_invariant {α : Type} (stod : String → Option α) (t t2 : Table)
    (c : Nat) (hc : c < t.headers.length) (hh : t2.headers = t.headers)
    (hp : t2.data.Perm t.data) :
    isNumericColumn stod t2 (c : Int) = isNumericColumn stod t (c : Int) := by
  have hc2 : c < t2.headers.length := by rw [hh]; exact hc
  rw [Bool.eq_iff_iff, isNumericColumn_valid stod t c hc, isNumericColumn_valid stod t2 c hc2,
    isNumericRows_iff, isNumericRows_iff]
  constructor
  · intro H row hrow
    exact H row (hp.mem_iff.2 hrow)
  · intro H row hrow
    exact H row (hp.mem_iff.1 hrow)

/-- C19 (as stated, refuted): in the table of rows `b`, `a` both values have
count 1 and `b` is seen first (row 0, `a` in row 1), yet the distribution lists
`a` before `b`. -/
theorem analyzeColumn_ties_counterexample :
    (presentCells 0 tableBA.data).indexOf "b" < (presentCells 0 tableBA.data).indexOf "a" ∧
    analyzeColumn (stodDecimal : String → Option ℝ) Real.sqrt tableBA ((0 : Nat) : Int)
      = AnalysisResult.categorical 2 2 [("a", 1, 50), ("b", 1, 50)] := by
  refine ⟨by decide, ?_⟩
  have hlt : ("a" : String) < "b" := String.lt_iff_toList_lt.mpr (by decide)
  have hcells : presentCells 0 tableBA.data = ["b", "a"] := by decide
  have hfreq : (presentCells 0 tableBA.data).foldl (fun m key => frequencyIncr key m) []
      = [("a", 1), ("b", 1)] := by
    rw [hcells]
    simp [frequencyIncr, hlt]
  have hsort : sortByCount [("a", 1), ("b", 1)] = [("a", 1), ("b", 1)] := by decide
  have hlen : (presentCells 0 tableBA.data).length = 2 := by decide
  rw [analyzeColumn_categorical _ _ _ 0 (by decide) (by decide), hfreq, hsort, hlen]
  norm_num

/-- C19 (amended): at a valid index that is not numeric, in every arithmetic of
`double` and for every function the sort of the frequency entries computes,
the entries reach the sort in ascending order of their value strings (the key
order of the map the counts are kept in), one entry per present cell string
with the number of its occurrences, and the reported distribution is the
sorted entries; the report is the same for every order of the rows, so the
order among equal counts does not follow the order in which values are first
seen. -/
theorem analyzeColumn_ties_independent_of_row_order {α : Type} [Zero α] [Add α] [Sub α]
    [Mul α] [Div α] [NatCast α] [OfNat α 2] [OfNat α 100] [LE α]
    [DecidableRel (fun a b : α => a ≤ b)]
    (sortFreq : List (String × Nat) → List (String × Nat))
    (stod : String → Option α) (sqrt : α → α) (t : Table) (c : Nat)
    (hc : c < t.headers.length) (hnum : isNumericColumn stod t (c : Int) = false) :
    ∃ frequency : List (String × Nat),
      (frequency.map Prod.fst).Sorted (fun a b => a < b) ∧
      (∀ key, key ∈ frequency.map Prod.fst ↔ key ∈ presentCells c t.data) ∧
      (∀ e ∈ frequency, e.2 = (presentCells c t.data).count e.1) ∧
      analyzeColumnWith sortFreq stod sqrt t (c : Int)
        = AnalysisResult.categorical (presentCells c t.data).length frequency.length
            ((sortFreq frequency).map
              (fun pair => (pair.1, pair.2,
                (pair.2 : α) / ((presentCells c t.data).length : α) * 100))) ∧
      ∀ t2 : Table, t2.headers = t.headers → t2.data.Perm t.data →
        analyzeColumnWith sortFreq stod sqrt t2 (c : Int)
          = analyzeColumnWith sortFreq stod sqrt t (c : Int) := by
  have hsorted := foldl_frequencyIncr_keys_sorted (presentCells c t.data) [] (by simp)
  refine ⟨(presentCells c t.data).foldl (fun m key => frequencyIncr key m) [], hsorted,
    ?_, ?_, analyzeColumnWith_categorical sortFreq stod sqrt t c hc hnum, ?_⟩
  · intro key
    rw [foldl_frequencyIncr_mem_keys]
    simp
  · intro e he
    have h1 := frequencyOf_of_mem _ (keys_nodup_of_sorted _ hsorted) e he
    rw [foldl_frequencyIncr_frequencyOf] at h1
    simpa [frequencyOf] using h1.symm
  · intro t2 hh hp
    have hc2 : c < t2.headers.length := by rw [hh]; exact hc
    have hnum2 : isNumericColumn stod t2 (c : Int) = false := by
      rw [isNumericColumn_perm_invariant stod t t2 c hc hh hp, hnum]
    have hcells : (presentCells c t2.data).Perm (presentCells c t.data) := hp.filterMap _
    rw [analyzeColumnWith_categorical sortFreq stod sqrt t2 c hc2 hnum2,
      analyzeColumnWith_categorical sortFreq stod sqrt t c hc hnum,
      frequency_perm_invariant _ _ hcells, hcells.length_eq]

/-- Witness for C19 (amended) on the table of rows `b`, `a`, on doubles: the
entries reach the sort as `a`, `b`, and the table of rows `a`, `b` has the same
report. -/
theorem analyzeColumn_ties_independent_of_row_order_witness :
    0 < tableBA.headers.length ∧
    isNumericColumn stodDouble tableBA ((0 : Nat) : Int) = false ∧
    (presentCells 0 tableBA.data).foldl (fun m key => frequencyIncr key m) []
      = [("a", 1), ("b", 1)] ∧
    ∀ sortFreq : List (String × Nat) → List (String × Nat),
      analyzeColumnWith sortFreq stodDouble F64.sqrt tableAB ((0 : Nat) : Int)
        = analyzeColumnWith sortFreq stodDouble F64.sqrt tableBA ((0 : Nat) : Int) := by
  have hlt : ("a" : String) < "b" := String.lt_iff_toList_lt.mpr (by decide)
  have hcells : presentCells 0 tableBA.data = ["b", "a"] := by decide
  refine ⟨by decide, by decide, ?_, ?_⟩
  · rw [hcells]
    simp [frequencyIncr, hlt]
  · intro sortFreq
    obtain ⟨_, _, _, _, _, hperm⟩ :=
      analyzeColumn_ties_independent_of_row_order sortFreq stodDouble F64.sqrt tableBA 0
        (by decide) (by decide)
    exact hperm tableAB rfl (List.Perm.swap _ _ _)

/-! ## Export and reload: proofs -/

theorem getlinePieces_no_delim (d : Char) (s : List Char) :
    ∀ p ∈ getlinePieces d s, d ∉ p := by
  induction s with
  | nil => simp [getlinePieces]
  | cons c cs ih =>
    unfold getlinePieces
    by_cases h : c = d
    · rw [if_pos h]
      intro p hp
      rcases List.mem_cons.mp hp with hp | hp
      · rw [hp]
        simp
      · exact ih p hp
    · rw [if_neg h]
      cases hrec : getlinePieces d cs with
      | nil =>
        intro p hp
        simp only [List.mem_singleton] at hp
        rw [hp]
        simpa using fun hd => h hd.symm
      | cons piece pieces =>
        rw [hrec] at ih
        intro p hp
        rcases List.mem_cons.mp hp with hp | hp
        · rw [hp]
          intro hmem
          rcases List.mem_cons.mp hmem with hmem | hmem
          · exact h hmem.symm
          · exact ih piece (List.mem_cons_self _ _) hmem
        · exact ih p (List.mem_cons_of_mem _ hp)

theorem getlinePieces_chars (d : Char) (s : List Char) :
    ∀ p ∈ getlinePieces d s, ∀ ch ∈ p, ch ∈ s := by
  induction s with
  | nil => simp [getlinePieces]
  | cons c cs ih =>
    unfold getlinePieces
    by_cases h : c = d
    · rw [if_pos h]
      intro p hp ch hch
      rcases List.mem_cons.mp hp with hp | hp
      · rw [hp] at hch
        simp at hch
      · exact List.mem_cons_of_mem _ (ih p hp ch hch)
    · rw [if_neg h]
      cases hrec : getlinePieces d cs with
      | nil =>
        intro p hp ch hch
        simp only [List.mem_singleton] at hp
        rw [hp] at hch
        simp only [List.mem_singleton] at hch
        rw [hch]
        exact List.mem_cons_self _ _
      | cons piece pieces =>
        rw [hrec] at ih
        intro p hp ch hch
        rcases List.mem_cons.mp hp with hp | hp
        · rw [hp] at hch
          rcases List.mem_cons.mp hch with hch | hch
          · rw [hch]
            exact List.mem_cons_self _ _
          · exact List.mem_cons_of_mem _ (ih piece (List.mem_cons_self _ _) ch hch)
        · exact List.mem_cons_of_mem _ (ih p (List.mem_cons_of_mem _ hp) ch hch)

/-- A piece that holds no delimiter, followed by the delimiter, is read as one
piece. -/
theorem getlinePieces_append_delim (d : Char) (p rest : List Char) (hp : d ∉ p) :
    getlinePieces d (p ++ d :: rest) = p :: getlinePieces d rest := by
  induction p with
  | nil => simp [getlinePieces]
  | cons c cs ih =>
    have hc : ¬ c = d := fun h => hp (by rw [h]; exact List.mem_cons_self _ _)
    have hcs : d ∉ cs := fun h => hp (List.mem_cons_of_mem _ h)
    rw [List.cons_append, getlinePieces, if_neg hc, ih hcs]

/-- Text without the delimiter is one piece, or none when it is empty. -/
theorem getlinePieces_of_no_delim (d : Char) (p : List Char) (hp : d ∉ p) :
    getlinePieces d p = if p = [] then [] else [p] := by
  induction p with
  | nil => simp [getlinePieces]
  | cons c cs ih =>
    have hc : ¬ c = d := fun h => hp (by rw [h]; exact List.mem_cons_self _ _)
    have hcs : d ∉ cs := fun h => hp (List.mem_cons_of_mem _ h)
    unfold getlinePieces
    rw [if_neg hc, ih hcs]
    by_cases hnil : cs = []
    · simp [hnil]
    · simp [hnil]

/-- Lines that hold no newline, each written with a newline after it, are read
back one by one. -/
theorem getlinePieces_lines (lines : List (List Char)) (h : ∀ l ∈ lines, '\n' ∉ l) :
    getlinePieces '\n' ((lines.map (fun l => l ++ ['\n'])).flatten) = lines := by
  induction lines with
  | nil => simp [getlinePieces]
  | cons l rest ih =>
    rw [List.map_cons, List.flatten_cons, List.append_assoc, List.singleton_append,
      getlinePieces_append_delim _ _ _ (h l (List.mem_cons_self _ _)),
      ih (fun l2 hl2 => h l2 (List.mem_cons_of_mem _ hl2))]

theorem trimCell_sublist (p : List Char) : (trimCell p).Sublist p :=
  (List.rdropWhile_prefix isBlank _).sublist.trans (List.dropWhile_sublist isBlank)

theorem trimCell_idempotent (p : List Char) : trimCell (trimCell p) = trimCell p := by
  have hdrop : (trimCell p).dropWhile isBlank = trimCell p := by
    rw [List.dropWhile_eq_self_iff]
    intro hl
    have hpre : trimCell p <+: p.dropWhile isBlank := List.rdropWhile_prefix isBlank _
    have hlen : 0 < (p.dropWhile isBlank).length := Nat.lt_of_lt_of_le hl hpre.length_le
    have hnot := List.dropWhile_get_zero_not isBlank p hlen
    have heq : (trimCell p).get ⟨0, hl⟩ = (p.dropWhile isBlank).get ⟨0, hlen⟩ := by
      simp only [List.get_eq_getElem]
      exact hpre.getElem hl
    rw [heq]
    exact hnot
  have hstep : trimCell (trimCell p) = ((trimCell p).dropWhile isBlank).rdropWhile isBlank :=
    rfl
  rw [hstep, hdrop]
  exact List.rdropWhile_idempotent isBlank _

theorem parseLine_clean (line : List Char) (hline : '\n' ∉ line) :
    ∀ cell ∈ parseLine line, cellClean cell := by
  intro cell hcell
  obtain ⟨p, hp, rfl⟩ := List.mem_map.mp hcell
  have hsub : ∀ ch ∈ trimCell p, ch ∈ p := fun ch hch => (trimCell_sublist p).subset hch
  refine ⟨?_, ?_, ?_⟩
  · intro hmem
    exact getlinePieces_no_delim ',' line p hp (hsub _ hmem)
  · intro hmem
    exact hline (getlinePieces_chars ',' line p hp _ (hsub _ hmem))
  · exact trimCell_idempotent p

theorem loadData_clean (text : String) : tableClean (loadData text) := by
  have hrows : ∀ row ∈ (getlinePieces '\n' text.toList).map parseLine,
      ∀ cell ∈ row, cellClean cell := by
    intro row hrow
    obtain ⟨line, hline, rfl⟩ := List.mem_map.mp hrow
    exact parseLine_clean line (getlinePieces_no_delim '\n' text.toList line hline)
  unfold loadData
  cases hl : (getlinePieces '\n' text.toList).map parseLine with
  | nil => exact ⟨by simp, by simp⟩
  | cons headers data =>
    rw [hl] at hrows
    exact ⟨hrows headers (List.mem_cons_self _ _),
      fun row hrow => hrows row (List.mem_cons_of_mem _ hrow)⟩

theorem writeFields_chars (row : List String) :
    ∀ ch ∈ writeFields row, ch = ',' ∨ ∃ cell ∈ row, ch ∈ cell.toList := by
  induction row with
  | nil => simp [writeFields]
  | cons field rest ih =>
    cases rest with
    | nil =>
      intro ch hch
      simp only [writeFields] at hch
      exact Or.inr ⟨field, List.mem_cons_self _ _, hch⟩
    | cons next rest2 =>
      intro ch hch
      simp only [writeFields, List.mem_append, List.mem_cons] at hch
      rcases hch with hch | hch | hch
      · exact Or.inr ⟨field, List.mem_cons_self _ _, hch⟩
      · exact Or.inl hch
      · rcases ih ch hch with h | ⟨cell, hcell, hmem⟩
        · exact Or.inl h
        · exact Or.inr ⟨cell, List.mem_cons_of_mem _ hcell, hmem⟩

theorem writeFields_no_newline (row : List String) (hrow : ∀ cell ∈ row, cellClean cell) :
    '\n' ∉ writeFields row := by
  intro hmem
  rcases writeFields_chars row _ hmem with h | ⟨cell, hcell, hch⟩
  · exact absurd h (by decide)
  · exact (hrow cell hcell).2.1 hch

/-- The first cell read back from a written record is the record's first cell,
when anything is read back at all. -/
theorem parseLine_writeFields_first (c0 : String) (rest : List String) (hc0 : cellClean c0) :
    (parseLine (writeFields (c0 :: rest))).get? 0 = none ∨
    (parseLine (writeFields (c0 :: rest))).get? 0 = some c0 := by
  have htrim : String.mk (trimCell c0.toList) = c0 := by
    rw [hc0.2.2]
    rfl
  cases rest with
  | nil =>
    have hw : writeFields [c0] = c0.toList := rfl
    rw [hw]
    unfold parseLine
    rw [getlinePieces_of_no_delim ',' c0.toList hc0.1]
    by_cases hnil : c0.toList = []
    · left
      rw [if_pos hnil]
      rfl
    · right
      rw [if_neg hnil]
      show some (String.mk (trimCell c0.toList)) = some c0
      rw [htrim]
  | cons next rest2 =>
    right
    have hw : writeFields (c0 :: next :: rest2)
        = c0.toList ++ ',' :: writeFields (next :: rest2) := rfl
    rw [hw]
    unfold parseLine
    rw [getlinePieces_append_delim ',' c0.toList _ hc0.1]
    show some (String.mk (trimCell c0.toList)) = some c0
    rw [htrim]

/-- What `loadData` reads from the file an export wrote. -/
theorem loadData_export_file (t : Table) (selected : List (List String))
    (hclean : tableClean t) (hsel : ∀ row ∈ selected, row ∈ t.data) :
    loadData (String.mk (writeLine t.headers ++ ((selected.map writeLine).flatten)))
      = ⟨parseLine (writeFields t.headers),
          selected.map (fun row => parseLine (writeFields row))⟩ := by
  have hlines : ∀ l ∈ (t.headers :: selected).map writeFields, '\n' ∉ l := by
    intro l hl
    obtain ⟨row, hrow, rfl⟩ := List.mem_map.mp hl
    rcases List.mem_cons.mp hrow with hrow | hrow
    · rw [hrow]
      exact writeFields_no_newline _ hclean.1
    · exact writeFields_no_newline _ (hclean.2 row (hsel row hrow))
  have hfile : writeLine t.headers ++ ((selected.map writeLine).flatten)
      = ((((t.headers :: selected).map writeFields)).map (fun l => l ++ ['\n'])).flatten := by
    simp only [List.map_cons, List.flatten_cons, List.map_map]
    rfl
  unfold loadData
  rw [show (String.mk (writeLine t.headers ++ ((selected.map writeLine).flatten))).toList
      = writeLine t.headers ++ ((selected.map writeLine).flatten) from rfl, hfile,
    getlinePieces_lines _ hlines]
  simp only [List.map_cons, List.map_map]
  rfl

theorem getNumericColumn_invalid {α : Type} (stod : String → Option α) (t : Table)
    (columnIndex : Int)
    (h : columnIndex < 0 ∨ columnIndex ≥ (t.headers.length : Int)) :
    getNumericColumn stod t columnIndex = [] := by
  unfold getNumericColumn
  rw [if_pos h]

theorem roundtrip_clean {α : Type} [LinearOrderedField α] (stod : String → Option α)
    (t : Table) (hclean : tableClean t) (threshold : α) :
    ∃ (file : String) (exportedRows : Nat),
      exportData stod t true ((0 : Nat) : Int) ">=" threshold
        = ExportOutcome.exported file exportedRows ∧
      ∀ v ∈ getNumericColumn stod (loadData file) ((0 : Nat) : Int), v ≥ threshold := by
  refine ⟨_, _, exportData_eq stod t 0 ">=" threshold, ?_⟩
  rw [loadData_export_file t _ hclean (fun row hrow => (List.mem_filter.mp hrow).1)]
  intro v hv
  by_cases hvalid : 0 < (parseLine (writeFields t.headers)).length
  · rw [getNumericColumn_valid stod _ 0 hvalid] at hv
    unfold presentParsed at hv
    obtain ⟨reloaded, hreloaded, hparse⟩ := List.mem_filterMap.mp hv
    obtain ⟨row, hrow, rfl⟩ := List.mem_map.mp hreloaded
    obtain ⟨hdata, hselected⟩ := List.mem_filter.mp hrow
    obtain ⟨hlen, v0, hv0, hholds⟩ := (rowSelected_iff stod 0 ">=" threshold row).mp hselected
    cases row with
    | nil => simp at hlen
    | cons c0 rest =>
      have hc0 : cellClean c0 := hclean.2 _ hdata c0 (List.mem_cons_self _ _)
      simp only [List.get_eq_getElem, List.getElem_cons_zero] at hv0
      rcases parseLine_writeFields_first c0 rest hc0 with hnone | hsome
      · rw [hnone] at hparse
        simp at hparse
      · rw [hsome, Option.some_bind, hv0] at hparse
        have hvv : v0 = v := Option.some.inj hparse
        rw [← hvv]
        simpa [comparatorHolds] using hholds
  · rw [getNumericColumn_invalid stod _ _ (Or.inr (by
      simp only [ge_iff_le, Nat.cast_le]
      exact Nat.le_of_not_lt hvalid))] at hv
    simp at hv

/-- C16: for the table `loadData` produces from any text (its cells are
trimmed and hold no comma and no newline) and for any table with such cells,
and for every threshold X: `exportData` on column 0 with `>=` and X writes a
file, and `getNumericColumn(0)` on the table `loadData` reads from that file
holds only values >= X. -/
theorem export_reload_roundtrip {α : Type} [LinearOrderedField α]
    (stod : String → Option α) (threshold : α) :
    (∀ text : String, tableClean (loadData text) ∧
      ∃ (file : String) (exportedRows : Nat),
        exportData stod (loadData text) true ((0 : Nat) : Int) ">=" threshold
          = ExportOutcome.exported file exportedRows ∧
        ∀ v ∈ getNumericColumn stod (loadData file) ((0 : Nat) : Int), v ≥ threshold) ∧
    (∀ t : Table, tableClean t →
      ∃ (file : String) (exportedRows : Nat),
        exportData stod t true ((0 : Nat) : Int) ">=" threshold
          = ExportOutcome.exported file exportedRows ∧
        ∀ v ∈ getNumericColumn stod (loadData file) ((0 : Nat) : Int), v ≥ threshold) :=
  ⟨fun text => ⟨loadData_clean text,
      roundtrip_clean stod (loadData text) (loadData_clean text) threshold⟩,
    fun t hclean => roundtrip_clean stod t hclean threshold⟩

theorem stodDecimal_of_parse_none {α : Type} [LinearOrderedField α] {s : String}
    (h : parseDecimal s.toList = none) : (stodDecimal s : Option α) = none := by
  unfold stodDecimal
  rw [h]
  rfl

theorem comparatorHolds_ge {α : Type} [LinearOrderedField α] (v threshold : α) :
    comparatorHolds ">=" v threshold = some (decide (v ≥ threshold)) := by
  simp [comparatorHolds, fabs_eq_abs]

theorem mixedText_export :
    exportData (stodDecimal : String → Option ℝ) (loadData mixedText) true ((0 : Nat) : Int)
      ">=" 5 = ExportOutcome.exported "v,w\n5,b\n7,c\n" 2 := by
  have hh : (loadData mixedText).headers = ["v", "w"] := by decide
  have hd : (loadData mixedText).data = [["1", "a"], ["5", "b"], ["7", "c"], ["x", "d"]] := by
    decide
  have h1 : (stodDecimal "1" : Option ℝ) = some 1 := stodDecimal_digit_values.1
  have h5 : (stodDecimal "5" : Option ℝ) = some 5 := stodDecimal_digit_values.2.2.2
  have h7 : (stodDecimal "7" : Option ℝ) = some 7 := by
    rw [stodDecimal_of_parse (show parseDecimal "7".toList = some ⟨false, 7, 0⟩ by decide)]
    simp [Decimal.toValue]
  have hx : (stodDecimal "x" : Option ℝ) = none :=
    stodDecimal_of_parse_none (by decide)
  have s1 : rowSelected (stodDecimal : String → Option ℝ) 0 ">=" 5 ["1", "a"] = false := by
    simp only [rowSelected, List.get?_cons_zero, Option.some_bind, h1, comparatorHolds_ge]
    norm_num
  have s5 : rowSelected (stodDecimal : String → Option ℝ) 0 ">=" 5 ["5", "b"] = true := by
    simp only [rowSelected, List.get?_cons_zero, Option.some_bind, h5, comparatorHolds_ge]
    norm_num
  have s7 : rowSelected (stodDecimal : String → Option ℝ) 0 ">=" 5 ["7", "c"] = true := by
    simp only [rowSelected, List.get?_cons_zero, Option.some_bind, h7, comparatorHolds_ge]
    norm_num
  have sx : rowSelected (stodDecimal : String → Option ℝ) 0 ">=" 5 ["x", "d"] = false := by
    simp only [rowSelected, List.get?_cons_zero, Option.some_bind, hx]
  rw [exportData_eq, hh, hd]
  simp only [List.filter_cons, List.filter_nil, s1, s5, s7, sx, if_true, Bool.false_eq_true,
    if_false, List.map_cons, List.map_nil, List.length_cons, List.length_nil]
  rfl

theorem mixedText_reload :
    getNumericColumn (stodDecimal : String → Option ℝ) (loadData "v,w\n5,b\n7,c\n")
      ((0 : Nat) : Int) = [5, 7] := by
  have hd : (loadData "v,w\n5,b\n7,c\n").data = [["5", "b"], ["7", "c"]] := by decide
  have h5 : (stodDecimal "5" : Option ℝ) = some 5 := stodDecimal_digit_values.2.2.2
  have h7 : (stodDecimal "7" : Option ℝ) = some 7 := by
    rw [stodDecimal_of_parse (show parseDecimal "7".toList = some ⟨false, 7, 0⟩ by decide)]
    simp [Decimal.toValue]
  rw [getNumericColumn_valid _ _ 0 (by decide), hd]
  simp only [presentParsed, List.filterMap_cons, List.filterMap_nil, List.get?_cons_zero,
    Option.some_bind, h5, h7]

/-- Witness for C16 on a file of five lines with threshold 5: the export keeps
the rows of 5 and 7, and the reloaded first column is 5, 7. -/
theorem export_reload_roundtrip_witness :
    exportData (stodDecimal : String → Option ℝ) (loadData mixedText) true ((0 : Nat) : Int)
      ">=" 5 = ExportOutcome.exported "v,w\n5,b\n7,c\n" 2 ∧
    getNumericColumn (stodDecimal : String → Option ℝ) (loadData "v,w\n5,b\n7,c\n")
      ((0 : Nat) : Int) = [5, 7] ∧
    ∃ (file : String) (exportedRows : Nat),
      exportData (stodDecimal : String → Option ℝ) (loadData mixedText) true
        ((0 : Nat) : Int) ">=" 5 = ExportOutcome.exported file exportedRows ∧
      ∀ v ∈ getNumericColumn (stodDecimal : String → Option ℝ) (loadData file)
        ((0 : Nat) : Int), v ≥ 5 :=
  ⟨mixedText_export, mixedText_reload,
    ((export_reload_roundtrip (stodDecimal : String → Option ℝ) 5).1 mixedText).2⟩

end DataAnalyzer
